import Mathlib

/-!
# The Lua/JavaScript bridge of `golua/main.go`

A shallow embedding of the WebAssembly bridge between GopherLua and the
JavaScript host: the two value converters `luaToJsVal` and `jsValToLua` and
the four entry points `doString`, `getAllGlobals`, `getGlobal` and
`callFunction`.

Conventions of the embedding:

* `float64` is carried as an abstract type `F`; the bridge never computes with
  numbers, it only hands them over, renders them as table keys and truncates a
  `length`.  What the two runtimes do with numbers is collected in `Prims F`.
* Lua tables are references (`*lua.LTable`), so an interpreter state carries a
  heap of tables and a table value is an address into it.  Cyclic tables are
  ordinary heaps.
* The interpreter itself (`DoString`, `CallByParam`) is an external
  collaborator: its effect is a parameter `Engine F`, and every run of
  interpreter code is recorded in the `trace` of the state.
* A Go `string` returned from a `js.FuncOf` callback reaches the host as a
  JavaScript string, so the entry points return a `JsVal`.
* `fmt.Printf` logging is not modelled.
* `JsVal`, `LState.GetGlobal`, `getGlobal` and `callFunction` cover host values
  of the eight kinds of `js.Type` and a table of globals whose lookup needs no
  metatable.  `HostVal`, `Full.GetGlobal`, `Full.getGlobal` and
  `Full.callFunction` cover the rest: a BigInt, on which `js.Value.Type`
  panics, and the `__index` of the metatable of the table of globals, which
  GopherLua's `GetGlobal` follows.  A panic of the Go program is the `error` of
  `Except`.
-/

namespace GoLua

/-! ## Primitives of the two runtimes -/

/-- What the bridge needs to know about `float64` and about the rendering of
references in the two runtimes. -/
structure Prims (F : Type) where
  /-- Conversion of an integer to a number (`LNumber(i+1)`, the `length` of a
  host array). -/
  ofInt : Int → F
  /-- Truncation of a number to a Go `int`, as done by `js.Value.Int`. -/
  toInt : F → Int
  /-- Textual form of a number in the interpreter, `LNumber.String`. -/
  luaStr : F → String
  /-- Textual form of a number in the host, used by `js.Value.String`. -/
  jsStr : F → String
  /-- Textual form of a reference, the `%p` of `LTable.String` and friends. -/
  ptrStr : Nat → String

/-! ## Interpreter values -/

/-- The type tags of GopherLua, `lua.LValueType`. -/
inductive LValueType
  | LTNil | LTBool | LTNumber | LTString | LTFunction | LTUserData | LTThread
  | LTTable | LTChannel
  deriving DecidableEq, Repr

/-- An interpreter value, `lua.LValue`.  Tables, functions, userdata, threads
and channels are references. -/
inductive LValue (F : Type)
  | nil
  | bool (b : Bool)
  | number (x : F)
  | string (s : String)
  | table (ref : Nat)
  | function (ref : Nat)
  | userdata (ref : Nat)
  | thread (ref : Nat)
  | channel (ref : Nat)
  deriving DecidableEq, Repr

namespace LValue

variable {F : Type}

/-- The type tag of a value, `LValue.Type`. -/
def Type_ : LValue F → LValueType
  | .nil => .LTNil
  | .bool _ => .LTBool
  | .number _ => .LTNumber
  | .string _ => .LTString
  | .table _ => .LTTable
  | .function _ => .LTFunction
  | .userdata _ => .LTUserData
  | .thread _ => .LTThread
  | .channel _ => .LTChannel

/-- The test `v == LNil`. -/
def isNil : LValue F → Bool
  | .nil => true
  | _ => false

/-- The textual form of a value, `LValue.String`. -/
def String (p : Prims F) : LValue F → String
  | .nil => "nil"
  | .bool b => if b then "true" else "false"
  | .number x => p.luaStr x
  | .string s => s
  | .table r => "table: " ++ p.ptrStr r
  | .function r => "function: " ++ p.ptrStr r
  | .userdata r => "userdata: " ++ p.ptrStr r
  | .thread r => "thread: " ++ p.ptrStr r
  | .channel r => "channel: " ++ p.ptrStr r

end LValue

/-- A GopherLua table, `lua.LTable`: the array part (slot `i` holds the value
of key `i+1`, an empty slot holds `LNil`), the string-keyed part and the part
for all other keys.  The two maps are association lists; the order of a list
stands for the order in which Go happens to enumerate the map. -/
structure LTable (F : Type) where
  array : List (LValue F)
  strdict : List (String × LValue F)
  dict : List (LValue F × LValue F)
  deriving DecidableEq, Repr

namespace LTable

variable {F : Type}

/-- The table made by `newLTable`. -/
def empty : LTable F := ⟨[], [], []⟩

/-- The pairs `(LNumber(i+1), v)` that `ForEach` yields for the array part,
starting at slot `i`. -/
def arrayEntries (p : Prims F) : Nat → List (LValue F) → List (LValue F × LValue F)
  | _, [] => []
  | i, v :: rest =>
    if v.isNil then arrayEntries p (i + 1) rest
    else (.number (p.ofInt ((i : Int) + 1)), v) :: arrayEntries p (i + 1) rest

/-- The string-keyed pairs that `ForEach` yields. -/
def strEntries : List (String × LValue F) → List (LValue F × LValue F)
  | [] => []
  | (k, v) :: rest =>
    if v.isNil then strEntries rest else (.string k, v) :: strEntries rest

/-- The remaining pairs that `ForEach` yields. -/
def dictEntries : List (LValue F × LValue F) → List (LValue F × LValue F)
  | [] => []
  | (k, v) :: rest =>
    if v.isNil then dictEntries rest else (k, v) :: dictEntries rest

/-- The sequence of `(key, value)` pairs on which `LTable.ForEach` calls its
callback: array part, then string keys, then the other keys, skipping `LNil`
values. -/
def entries (p : Prims F) (tb : LTable F) : List (LValue F × LValue F) :=
  arrayEntries p 0 tb.array ++ strEntries tb.strdict ++ dictEntries tb.dict

/-- `LTable.ForEach`: run the callback on every entry, threading through it the
state the callback updates. -/
def ForEach {σ : Type} (p : Prims F) (tb : LTable F)
    (cb : LValue F → LValue F → σ → σ) (init : σ) : σ :=
  (tb.entries p).foldl (fun s kv => cb kv.1 kv.2 s) init

/-- Index of the last slot of `arr` that is not `LNil`, or `-1`: the `for` loop
of `LTable.Append`. -/
def lastNonNil : List (LValue F) → Int
  | [] => -1
  | v :: rest =>
    let j := lastNonNil rest
    if 0 ≤ j then j + 1 else if v.isNil then -1 else 0

/-- `LTable.Append`: `LNil` is dropped; any other value goes behind the last
used slot of the array part. -/
def Append (tb : LTable F) (value : LValue F) : LTable F :=
  if value.isNil then tb
  else if tb.array.length = 0 ∨ (tb.array.getLast?.map LValue.isNil) ≠ some true then
    { tb with array := tb.array ++ [value] }
  else
    let i := lastNonNil tb.array.dropLast
    { tb with array := tb.array.set (i + 1).toNat value }

/-- Assignment `m[key] = value` of a Go map kept as an association list. -/
def mapSet (key : String) (value : LValue F) : List (String × LValue F) → List (String × LValue F)
  | [] => [(key, value)]
  | (k, v) :: rest =>
    if k = key then (k, value) :: rest else (k, v) :: mapSet key value rest

/-- Go's `delete(m, key)`. -/
def mapDelete (key : String) : List (String × LValue F) → List (String × LValue F)
  | [] => []
  | (k, v) :: rest => if k = key then mapDelete key rest else (k, v) :: mapDelete key rest

/-- `LTable.RawSetString`: `LNil` deletes the key, any other value is stored. -/
def RawSetString (tb : LTable F) (key : String) (value : LValue F) : LTable F :=
  if value.isNil then { tb with strdict := mapDelete key tb.strdict }
  else { tb with strdict := mapSet key value tb.strdict }

/-- Lookup `m[key]` in the string-keyed part, `LNil` when absent. -/
def mapGet (key : String) : List (String × LValue F) → LValue F
  | [] => .nil
  | (k, v) :: rest => if k = key then v else mapGet key rest

/-- `LTable.RawGetString`. -/
def RawGetString (tb : LTable F) (key : String) : LValue F :=
  mapGet key tb.strdict

/-- `LTable.RawGetInt`, for the array part: the value of key `i`, `LNil` when
the slot does not exist. -/
def RawGetInt (tb : LTable F) (i : Nat) : LValue F :=
  if i = 0 then .nil else tb.array.getD (i - 1) .nil

end LTable

/-! ## Host values -/

/-- The type tags of `syscall/js`, `js.Type`. -/
inductive JsType
  | TypeUndefined | TypeNull | TypeBoolean | TypeNumber | TypeString | TypeSymbol
  | TypeObject | TypeFunction
  deriving DecidableEq, Repr

/-- A host function: either the stub that `luaToJsVal` makes for an interpreter
function, or a function of the host program. -/
inductive JsFunc
  | luaStub
  | native (ref : Nat)
  deriving DecidableEq, Repr

/-- A host value, `js.Value`, of one of the eight kinds of `js.Type`.  `object`,
`array` and `error` all have the type tag `TypeObject`; an object is the list of
its own enumerable properties, whose keys are pairwise distinct in a host
object that `Set` has built.  A BigInt, the host value that has none of the
eight type tags, is not among them: `HostVal` adds it. -/
inductive JsVal (F : Type)
  | undefined
  | null
  | boolean (b : Bool)
  | number (x : F)
  | string (s : String)
  | symbol (ref : Nat)
  | function (f : JsFunc)
  | object (props : List (String × JsVal F))
  | array (elems : List (JsVal F))
  | error (message : String)

namespace JsVal

variable {F : Type}

/-- The type tag of a host value, `js.Value.Type`. -/
def Type_ : JsVal F → JsType
  | .undefined => .TypeUndefined
  | .null => .TypeNull
  | .boolean _ => .TypeBoolean
  | .number _ => .TypeNumber
  | .string _ => .TypeString
  | .symbol _ => .TypeSymbol
  | .function _ => .TypeFunction
  | .object _ => .TypeObject
  | .array _ => .TypeObject
  | .error _ => .TypeObject

/-- Lookup of a property in the list of own properties, `undefined` when
absent. -/
def getProp (key : String) : List (String × JsVal F) → JsVal F
  | [] => .undefined
  | (k, v) :: rest => if k = key then v else getProp key rest

/-- Assignment of a property: an existing key keeps its place, a new key goes
last. -/
def setProp (key : String) (v : JsVal F) : List (String × JsVal F) → List (String × JsVal F)
  | [] => [(key, v)]
  | (k, w) :: rest => if k = key then (k, v) :: rest else (k, w) :: setProp key v rest

/-- Go's `js.Value.Get`.  An array answers `length`; its elements are read with
`Index`. -/
def Get (p : Prims F) : JsVal F → String → JsVal F
  | .object props, key => getProp key props
  | .array elems, key => if key = "length" then .number (p.ofInt elems.length) else .undefined
  | .error m, key => if key = "message" then .string m else .undefined
  | _, _ => .undefined

/-- Go's `js.Value.Set` on a host object. -/
def Set : JsVal F → String → JsVal F → JsVal F
  | .object props, key, v => .object (setProp key v props)
  | other, _, _ => other

/-- Go's `js.Value.Index`: element `i` of an array, property `i` of any other
object, `undefined` when there is none. -/
def Index : JsVal F → Int → JsVal F
  | .array elems, i => if 0 ≤ i then elems.getD i.toNat .undefined else .undefined
  | .object props, i => if 0 ≤ i then getProp (toString i.toNat) props else .undefined
  | _, _ => .undefined

/-- Go's `js.Value.Bool`, called on host booleans only. -/
def Bool : JsVal F → Bool
  | .boolean b => b
  | _ => false

/-- Go's `js.Value.Float`, called on host numbers only. -/
def Float (p : Prims F) : JsVal F → F
  | .number x => x
  | _ => p.ofInt 0

/-- Go's `js.Value.Int`: the number truncated to an `int`. -/
def Int (p : Prims F) : JsVal F → Int
  | .number x => p.toInt x
  | _ => 0

/-- Go's `js.Value.String`: the string itself for a host string, a bracketed
description of the type for everything else. -/
def String (p : Prims F) : JsVal F → String
  | .string s => s
  | .undefined => "<undefined>"
  | .null => "<null>"
  | .boolean b => "<boolean: " ++ (if b then "true" else "false") ++ ">"
  | .number x => "<number: " ++ p.jsStr x ++ ">"
  | .symbol _ => "<symbol>"
  | .function _ => "<function>"
  | .object _ => "<object>"
  | .array _ => "<object>"
  | .error _ => "<object>"

end JsVal

/-- The host's `new Object()`. -/
def Object_New {F : Type} : JsVal F := .object []

/-- The host's `new Error(message)`. -/
def Error_New {F : Type} (message : String) : JsVal F := .error message

/-- The host's `Object.keys(v)`: the own enumerable string keys, as a host
array of strings. -/
def Object_keys {F : Type} : JsVal F → JsVal F
  | .object props => .array (props.map (fun kv => .string kv.1))
  | .array elems => .array ((List.range elems.length).map (fun i => .string (toString i)))
  | _ => .array []

mutual
/-- Nesting rank of a host value: `0` for scalars and functions, one more than
every member for objects and arrays.  The measure of the recursion of
`jsValToLua`. -/
def JsVal.rank {F : Type} : JsVal F → Nat
  | .object props => rankProps props + 1
  | .array elems => rankElems elems + 1
  | .error _ => 1
  | _ => 0
/-- Largest rank among the property values of an object, plus one. -/
def rankProps {F : Type} : List (String × JsVal F) → Nat
  | [] => 0
  | (_, v) :: rest => max (v.rank + 1) (rankProps rest)
/-- Largest rank among the elements of an array, plus one. -/
def rankElems {F : Type} : List (JsVal F) → Nat
  | [] => 0
  | v :: rest => max (v.rank + 1) (rankElems rest)
end

/-! ## The interpreter state -/

/-- One run of interpreter code requested by the bridge. -/
inductive Invocation (F : Type)
  | chunk (source : String)
  | call (fn : LValue F) (nret : Int) (protect : Bool) (args : List (LValue F))
  deriving DecidableEq, Repr

/-- The shared interpreter state `luaState`, as far as the bridge can see it:
the heap of tables, the address `G` of the table of globals
(`luaState.G.Global`), the value stack the API works on, and the record of the
runs of interpreter code made so far. -/
structure LState (F : Type) where
  heap : List (LTable F)
  G : Nat
  stack : List (LValue F)
  trace : List (Invocation F)
  deriving DecidableEq, Repr

/-- The table behind a table reference. -/
def deref {F : Type} (heap : List (LTable F)) (ref : Nat) : LTable F :=
  heap.getD ref LTable.empty

/-- What running interpreter code does, seen from outside: given the heap and
the address of the globals, a chunk or a function call ends in an error message
or in a list of returned values, and leaves a new heap. -/
structure Engine (F : Type) where
  /-- Loading and running a chunk of source text. -/
  exec : String → Nat → List (LTable F) → Except String (List (LValue F)) × List (LTable F)
  /-- Calling a function value with arguments. -/
  call : LValue F → List (LValue F) → Nat → List (LTable F) →
    Except String (List (LValue F)) × List (LTable F)

/-- The parameter record `lua.P` of `CallByParam`. -/
structure P (F : Type) where
  Fn : LValue F
  NRet : Int
  Protect : Bool

namespace LState

variable {F : Type}

/-- `LState.NewTable`: a fresh empty table; its reference is returned. -/
def NewTable (L : LState F) : Nat × LState F :=
  (L.heap.length, { L with heap := L.heap ++ [LTable.empty] })

/-- The effect of `table.Append(value)` on the heap. -/
def Append (L : LState F) (table : Nat) (value : LValue F) : LState F :=
  { L with heap := L.heap.set table ((deref L.heap table).Append value) }

/-- The effect of `table.RawSetString(key, value)` on the heap. -/
def RawSetString (L : LState F) (table : Nat) (key : String) (value : LValue F) : LState F :=
  { L with heap := L.heap.set table ((deref L.heap table).RawSetString key value) }

/-- The raw lookup with which GopherLua's `LState.GetGlobal` starts: the value
bound to a name in the table of globals itself, `LNil` when there is none.  It
is all of `GetGlobal` when the table binds the name or has no `__index` in a
metatable; `Full.GetGlobal` is `GetGlobal` with metatables. -/
def GetGlobal (L : LState F) (name : String) : LValue F :=
  (deref L.heap L.G).RawGetString name

/-- `LState.GetTop`: the number of values on the stack. -/
def GetTop (L : LState F) : Int :=
  L.stack.length

/-- `LState.Get(idx)`: a positive index counts from the bottom of the stack, a
negative one from the top (`-1` is the value on top); `LNil` where there is no
value. -/
def Get (L : LState F) (idx : Int) : LValue F :=
  if idx > 0 then L.stack.getD (idx - 1).toNat .nil
  else if idx < 0 ∧ 0 ≤ (L.stack.length : Int) + idx then
    L.stack.getD ((L.stack.length : Int) + idx).toNat .nil
  else .nil

/-- `LState.ForEach(tb, cb)`: the callback is run on every entry of the table
behind `tb`. -/
def ForEach {σ : Type} (p : Prims F) (L : LState F) (tb : Nat)
    (cb : LValue F → LValue F → σ → σ) (init : σ) : σ :=
  (deref L.heap tb).ForEach p cb init

/-- `LState.Pop(n)`. -/
def Pop (L : LState F) (n : Nat) : LState F :=
  { L with stack := L.stack.take (L.stack.length - n) }

/-- The values a call leaves on the stack when `nret` results were asked for:
all of them for `MultRet` (`-1`), otherwise exactly `nret`, padded with `LNil`. -/
def adjust (nret : Int) (rets : List (LValue F)) : List (LValue F) :=
  if nret < 0 then rets
  else rets.take nret.toNat ++ List.replicate (nret.toNat - rets.length) .nil

/-- `LState.DoString`: load and run a chunk in protected mode with `MultRet`.
On success every returned value is left on the stack; on failure the stack is
as before and the message is returned. -/
def DoString (E : Engine F) (L : LState F) (source : String) : Option String × LState F :=
  let r := E.exec source L.G L.heap
  let L1 := { L with heap := r.2, trace := L.trace ++ [.chunk source] }
  match r.1 with
  | .error msg => (some msg, L1)
  | .ok rets => (none, { L1 with stack := L.stack ++ adjust (-1) rets })

/-- `LState.CallByParam` with `Protect` set: the function and its arguments are
pushed and consumed by the call; on success `NRet` results are left on the
stack, on failure the stack is as before and the message is returned. -/
def CallByParam (E : Engine F) (L : LState F) (cp : P F) (args : List (LValue F)) :
    Option String × LState F :=
  let r := E.call cp.Fn args L.G L.heap
  let L1 := { L with heap := r.2, trace := L.trace ++ [.call cp.Fn cp.NRet cp.Protect args] }
  match r.1 with
  | .error msg => (some msg, L1)
  | .ok rets => (none, { L1 with stack := L.stack ++ adjust cp.NRet rets })

end LState

/-! ## The value converters -/

section Converters

variable {F : Type}

/-- The function `luaToJsVal` of `main.go`: conversion of an interpreter value
to a host value, at a nesting depth. -/
def luaToJsVal (p : Prims F) (heap : List (LTable F)) (val : LValue F) (depth : Int) :
    JsVal F :=
  if _h : depth > 5 then .undefined
  else if val.Type_ = .LTFunction then .function .luaStub
  else
    match val with
    | .bool v => .boolean v
    | .number v => .number v
    | .table v =>
      (deref heap v).ForEach p
        (fun key value jsObj => jsObj.Set (key.String p) (luaToJsVal p heap value (depth + 1)))
        Object_New
    | .string v => .string v
    | v =>
      let s := v.String p
      if s = "nil" then .null else .string s
termination_by (6 - depth).toNat
decreasing_by
  all_goals simp_wf
  all_goals omega

/-- The function `jsValToLua` of `main.go`: conversion of a host value to an
interpreter value.  Tables are allocated in the shared state, which is
threaded through.  The host value is of one of the eight kinds of `js.Type`;
`Full.jsValToLua` is the function on a BigInt as well. -/
def jsValToLua (p : Prims F) (val : JsVal F) (L : LState F) : LValue F × LState F :=
  match _hv : val.Type_ with
  | .TypeBoolean => (.bool val.Bool, L)
  | .TypeNumber => (.number (val.Float p), L)
  | .TypeString => (.string (val.String p), L)
  | .TypeNull => (.nil, L)
  | .TypeUndefined => (.nil, L)
  | .TypeObject =>
    -- Convert JS object/array to Lua table
    let tl := L.NewTable
    let table := tl.1
    if (val.Get p "length").Type_ = .TypeNumber then
      -- It's an array
      let length := (val.Get p "length").Int p
      (.table table, (List.range length.toNat).foldl
        (fun L1 (i : Nat) =>
          let r := jsValToLua p (val.Index (i : Int)) L1
          r.2.Append table r.1) tl.2)
    else
      -- It's an object - iterate over keys
      let keys := Object_keys val
      let length := (keys.Get p "length").Int p
      (.table table, (List.range length.toNat).foldl
        (fun L1 (i : Nat) =>
          let key := (keys.Index (i : Int)).String p
          let r := jsValToLua p (val.Get p key) L1
          r.2.RawSetString table key r.1) tl.2)
  | _ => (.nil, L)
termination_by val.rank
decreasing_by
  all_goals
    have hp : ∀ (key : String) (props : List (String × JsVal F)),
        (JsVal.getProp key props).rank < rankProps props + 1 := by
      intro key props
      induction props with
      | nil => simp [JsVal.getProp, JsVal.rank]
      | cons kv rest ih =>
        obtain ⟨k, v⟩ := kv
        simp only [JsVal.getProp, rankProps]
        split <;> omega
    have he : ∀ (elems : List (JsVal F)) (j : Nat),
        (elems.getD j .undefined).rank < rankElems elems + 1 := by
      intro elems
      induction elems with
      | nil => intro j; simp [JsVal.rank]
      | cons v rest ih =>
        intro j
        cases j with
        | zero => simp only [List.getD_cons_zero, rankElems]; omega
        | succ j =>
          have := ih j
          simp only [List.getD_cons_succ, rankElems]; omega
    cases val <;> simp [JsVal.Type_] at _hv
  · simp only [JsVal.Index, JsVal.rank]; split
    · exact hp _ _
    · simp [JsVal.rank]
  · simp only [JsVal.Index, JsVal.rank]; split
    · exact he _ _
    · simp [JsVal.rank]
  · simp [JsVal.Index, JsVal.rank]
  · exact hp _ _
  · simp only [JsVal.Get]; split <;> simp [JsVal.rank]
  · simp only [JsVal.Get]; split <;> simp [JsVal.rank]

end Converters

/-! ## The entry points -/

section Bridge

variable {F : Type}

/-- The function `doString` of `main.go`. -/
def doString (p : Prims F) (E : Engine F) (args : List (JsVal F)) (L : LState F) :
    JsVal F × LState F :=
  if args.length < 1 then (.string "Error: missing argument", L)
  else
    let str := (args.getD 0 .undefined).String p
    let r := L.DoString E str
    match r.1 with
    | some err => (Error_New err, r.2)
    | none =>
      if r.2.GetTop > 0 then
        let ret := r.2.Get (-1)
        let L2 := r.2.Pop 1
        (luaToJsVal p L2.heap ret 0, L2)
      else (.null, r.2)

/-- The function `getAllGlobals` of `main.go`. -/
def getAllGlobals (p : Prims F) (_args : List (JsVal F)) (L : LState F) :
    JsVal F × LState F :=
  (L.ForEach p L.G
    (fun key value jsObj => jsObj.Set (key.String p) (luaToJsVal p L.heap value 0))
    Object_New, L)

/-- The function `getGlobal` of `main.go`, on host values of the eight kinds of
`js.Type` and with the lookup in the table of globals itself; `Full.getGlobal`
is the function on every host value and with metatables. -/
def getGlobal (p : Prims F) (args : List (JsVal F)) (L : LState F) : JsVal F × LState F :=
  if args.length < 1 then (.string "Error: missing argument", L)
  else
    let key := (args.getD 0 .undefined).String p
    let val := L.GetGlobal key
    (luaToJsVal p L.heap val 0, L)

/-- The loop of `callFunction` that converts the host arguments: `luaArgs`
grows by one converted value per argument, in order.  The arguments are host
values of the eight kinds of `js.Type`; `Full.convertArgs` is the loop on every
host value. -/
def convertArgs (p : Prims F) (args : List (JsVal F)) (L : LState F) :
    List (LValue F) × LState F :=
  args.foldl
    (fun acc a =>
      let r := jsValToLua p a acc.2
      (acc.1 ++ [r.1], r.2))
    ([], L)

/-- The function `callFunction` of `main.go`, on host values of the eight kinds
of `js.Type` and with the lookup in the table of globals itself;
`Full.callFunction` is the function on every host value and with metatables. -/
def callFunction (p : Prims F) (E : Engine F) (args : List (JsVal F)) (L : LState F) :
    JsVal F × LState F :=
  if args.length < 1 then (Error_New "Error: missing function name", L)
  else
    let funcName := (args.getD 0 .undefined).String p
    let fn := L.GetGlobal funcName
    if fn.Type_ ≠ .LTFunction then
      (Error_New ("Error: '" ++ funcName ++ "' is not a function"), L)
    else
      -- Convert JS arguments to Lua values
      let c := convertArgs p (args.drop 1) L
      let luaArgs := c.1
      -- Call the function with the arguments and expect 1 return value
      let r := c.2.CallByParam E { Fn := fn, NRet := 1, Protect := true } luaArgs
      match r.1 with
      | some err => (Error_New err, r.2)
      | none =>
        -- Get the return value
        if r.2.GetTop > 0 then
          let ret := r.2.Get (-1)
          let L2 := r.2.Pop 1
          (luaToJsVal p L2.heap ret 0, L2)
        else (.null, r.2)

end Bridge

/-! ## The bridge on every host value and every interpreter state

The sections above take host values of the eight kinds of `js.Type` and look a
global up in the table of globals itself.  The host and the interpreter can
hand the bridge two more things: a BigInt, on which `js.Value.Type` panics, and
metatables, through which GopherLua's `GetGlobal` resolves a name that the
table of globals does not bind.  This section adds both; a panic of the Go
program is the `error` of `Except`.  On values of the eight kinds and on a table
of globals without an `__index` the definitions below are those above. -/

section Full

variable {F : Type}

/-- A value as the host passes it to the bridge: a value of one of the eight
kinds of `js.Type` (its members, if it is an array or an object, being of these
kinds too), or a BigInt, for which `syscall/js` has no type tag. -/
inductive HostVal (F : Type)
  | typed (v : JsVal F)
  | bigint (n : Int)

/-- Go's `js.Value.Type` on any host value: it panics with `bad type flag` on a
BigInt. -/
def HostVal.Type_ : HostVal F → Except String JsType
  | .typed v => .ok v.Type_
  | .bigint _ => .error "bad type flag"

/-- Go's `js.Value.String` on any host value: it starts with a switch on
`Type()`. -/
def HostVal.String (p : Prims F) : HostVal F → Except String String
  | .typed v => .ok (v.String p)
  | .bigint _ => .error "bad type flag"

/-- The function `jsValToLua` of `main.go` on any host value: the switch on
`val.Type()` is reached only when `Type()` returns. -/
def Full.jsValToLua (p : Prims F) (val : HostVal F) (L : LState F) :
    Except String (LValue F × LState F) :=
  match val with
  | .typed v => .ok (GoLua.jsValToLua p v L)
  | .bigint _ => .error "bad type flag"

/-- The loop of `callFunction` that converts the host arguments, on any host
values: the first BigInt ends the program. -/
def Full.convertArgs (p : Prims F) :
    List (HostVal F) → List (LValue F) → LState F → Except String (List (LValue F) × LState F)
  | [], luaArgs, L => .ok (luaArgs, L)
  | a :: rest, luaArgs, L =>
    match Full.jsValToLua p a L with
    | .error msg => .error msg
    | .ok r => Full.convertArgs p rest (luaArgs ++ [r.1]) r.2

/-- GopherLua's `LState.metaOp(value, event)`: the entry `event` of the
metatable of `value`, `LNil` when the value has no metatable.  `mt` gives the
metatable of every value at the time of the call. -/
def metaOp (mt : LValue F → LValue F) (heap : List (LTable F)) (value : LValue F)
    (event : String) : LValue F :=
  match mt value with
  | .table m => (deref heap m).RawGetString event
  | _ => .nil

/-- GopherLua's `MaxTableGetLoop`. -/
def MaxTableGetLoop : Nat := 100

/-- GopherLua's `LState.getFieldString`, with `fuel` rounds of its loop left:
a raw hit in a table is returned; otherwise the `__index` of the metatable
decides: none gives `LNil` for a table, a function is called with the object
and the key (an unprotected call asking for one result, so its failure is a
panic), and anything else is searched next. -/
def getFieldString (E : Engine F) (mt : LValue F → LValue F) :
    Nat → LState F → LValue F → String → Except String (LValue F × LState F)
  | 0, _, _, _ => .error "too many recursions in gettable"
  | fuel + 1, L, curobj, key =>
    let ret :=
      match curobj with
      | .table tb => (deref L.heap tb).RawGetString key
      | _ => .nil
    if curobj.Type_ = .LTTable ∧ ret.isNil = false then .ok (ret, L)
    else
      let metaindex := metaOp mt L.heap curobj "__index"
      if metaindex.isNil then
        if curobj.Type_ = .LTTable then .ok (.nil, L)
        else .error "attempt to index a non-table object"
      else if metaindex.Type_ = .LTFunction then
        let r := E.call metaindex [curobj, .string key] L.G L.heap
        match r.1 with
        | .error msg => .error msg
        | .ok rets =>
          .ok (rets.headD .nil,
            { L with
              heap := r.2
              trace := L.trace ++ [.call metaindex 1 false [curobj, .string key]] })
      else getFieldString E mt fuel L metaindex key

/-- GopherLua's `LState.GetGlobal`: `GetField` on the table of globals, so a
name that the table does not bind is resolved through its metatable. -/
def Full.GetGlobal (E : Engine F) (mt : LValue F → LValue F) (L : LState F) (name : String) :
    Except String (LValue F × LState F) :=
  getFieldString E mt MaxTableGetLoop L (.table L.G) name

/-- The function `getGlobal` of `main.go`, on any host values and with
metatables. -/
def Full.getGlobal (p : Prims F) (E : Engine F) (mt : LValue F → LValue F)
    (args : List (HostVal F)) (L : LState F) : Except String (JsVal F × LState F) :=
  if args.length < 1 then .ok (.string "Error: missing argument", L)
  else
    match (args.getD 0 (.typed .undefined)).String p with
    | .error msg => .error msg
    | .ok key =>
      match Full.GetGlobal E mt L key with
      | .error msg => .error msg
      | .ok v => .ok (luaToJsVal p v.2.heap v.1 0, v.2)

/-- The function `callFunction` of `main.go`, on any host values and with
metatables. -/
def Full.callFunction (p : Prims F) (E : Engine F) (mt : LValue F → LValue F)
    (args : List (HostVal F)) (L : LState F) : Except String (JsVal F × LState F) :=
  if args.length < 1 then .ok (Error_New "Error: missing function name", L)
  else
    match (args.getD 0 (.typed .undefined)).String p with
    | .error msg => .error msg
    | .ok funcName =>
      match Full.GetGlobal E mt L funcName with
      | .error msg => .error msg
      | .ok g =>
        let fn := g.1
        if fn.Type_ ≠ .LTFunction then
          .ok (Error_New ("Error: '" ++ funcName ++ "' is not a function"), g.2)
        else
          -- Convert JS arguments to Lua values
          match Full.convertArgs p (args.drop 1) [] g.2 with
          | .error msg => .error msg
          | .ok c =>
            let luaArgs := c.1
            -- Call the function with the arguments and expect 1 return value
            let r := c.2.CallByParam E { Fn := fn, NRet := 1, Protect := true } luaArgs
            match r.1 with
            | some err => .ok (Error_New err, r.2)
            | none =>
              -- Get the return value
              if r.2.GetTop > 0 then
                let ret := r.2.Get (-1)
                let L2 := r.2.Pop 1
                .ok (luaToJsVal p L2.heap ret 0, L2)
              else .ok (.null, r.2)

end Full

/-! ## Auxiliary definitions for the statements -/

section Aux

variable {F : Type}

/-- The property list that the table loop of `luaToJsVal` and `getAllGlobals`
builds: one `Set` per enumerated entry, in order. -/
def setAll (key : LValue F → String) (conv : LValue F → JsVal F)
    (entries : List (LValue F × LValue F)) (props : List (String × JsVal F)) :
    List (String × JsVal F) :=
  entries.foldl (fun ps kv => JsVal.setProp (key kv.1) (conv kv.2) ps) props

/-- The host values found below exactly `n` enclosing host objects. -/
def membersAt : Nat → JsVal F → List (JsVal F)
  | 0, v => [v]
  | n + 1, .object props => props.flatMap (fun kv => membersAt n kv.2)
  | _ + 1, _ => []

/-- A run of `luaToJsVal` in which every nested call uses up one unit of
`fuel`: `none` when a chain of nested calls is longer than `fuel`. -/
def luaToJsValFuel (p : Prims F) (heap : List (LTable F)) :
    Nat → LValue F → Int → Option (JsVal F)
  | 0, _, _ => none
  | fuel + 1, val, depth =>
    if depth > 5 then some .undefined
    else if val.Type_ = .LTFunction then some (.function .luaStub)
    else
      match val with
      | .bool v => some (.boolean v)
      | .number v => some (.number v)
      | .table v =>
        (deref heap v).ForEach p
          (fun key value jsObj =>
            match jsObj, luaToJsValFuel p heap fuel value (depth + 1) with
            | some o, some w => some (o.Set (key.String p) w)
            | _, _ => none)
          (some Object_New)
      | .string v => some (.string v)
      | v =>
        let s := v.String p
        if s = "nil" then some .null else some (.string s)

/-- The first `n` rounds of the array loop of `jsValToLua`: element `i` of
`val` is converted and appended to the table at `table`. -/
def appendLoop (p : Prims F) (val : JsVal F) (table : Nat) (n : Nat) (L : LState F) :
    LState F :=
  (List.range n).foldl
    (fun L1 (i : Nat) =>
      let r := jsValToLua p (val.Index (i : Int)) L1
      r.2.Append table r.1) L

/-- The first `n` rounds of the object loop of `jsValToLua`: the property
named by element `i` of `keys` is converted and stored in the table at
`table`. -/
def setLoop (p : Prims F) (val keys : JsVal F) (table : Nat) (n : Nat) (L : LState F) :
    LState F :=
  (List.range n).foldl
    (fun L1 (i : Nat) =>
      let key := (keys.Index (i : Int)).String p
      let r := jsValToLua p (val.Get p key) L1
      r.2.RawSetString table key r.1) L

/-- The interpreter value that round `i` of the array loop appends: the
conversion of element `i`, made in the state the loop has reached. -/
def arrayItem (p : Prims F) (val : JsVal F) (L : LState F) (i : Nat) : LValue F :=
  (jsValToLua p (val.Index (i : Int)) (appendLoop p val L.heap.length i L.NewTable.2)).1

/-- The key that round `i` of the object loop handles. -/
def propKey (p : Prims F) (val : JsVal F) (i : Nat) : String :=
  ((Object_keys val).Index (i : Int)).String p

/-- The interpreter value that round `i` of the object loop stores: the
conversion of the property of that round, made in the state the loop has
reached. -/
def propItem (p : Prims F) (val : JsVal F) (L : LState F) (i : Nat) : LValue F :=
  (jsValToLua p (val.Get p (propKey p val i))
    (setLoop p val (Object_keys val) L.heap.length i L.NewTable.2)).1

/-- The table that the array loop has filled after `n` rounds. -/
def appended (p : Prims F) (val : JsVal F) (L : LState F) (n : Nat) : LTable F :=
  (List.range n).foldl (fun tb i => tb.Append (arrayItem p val L i)) LTable.empty

/-- The table that the object loop has filled after `n` rounds. -/
def stored (p : Prims F) (val : JsVal F) (L : LState F) (n : Nat) : LTable F :=
  (List.range n).foldl
    (fun tb i => tb.RawSetString (propKey p val i) (propItem p val L i)) LTable.empty

/-- An interpreter state with an empty table of globals, an empty stack and no
run of interpreter code so far. -/
def freshState : LState Int := ⟨[LTable.empty], 0, [], []⟩

/-- The text `part` occurs in the message `msg`. -/
def Contains (msg part : String) : Prop :=
  part.data <:+: msg.data

/-- An interpreter state whose global `add` is bound to a function. -/
def addState : LState Int := ⟨[⟨[], [("add", .function 7)], []⟩], 0, [], []⟩

/-- A stand-in for the interpreter, for the examples: the chunk `return 1+1`
returns the number 2, the chunk `x = 5` binds the global `x` and returns
nothing, every other chunk fails; a call with two numbers returns their sum,
every other call fails. -/
def demoEngine : Engine Int where
  exec := fun source G heap =>
    if source = "return 1+1" then (.ok [.number 2], heap)
    else if source = "x = 5" then
      (.ok [], heap.set G ((deref heap G).RawSetString "x" (.number 5)))
    else (.error "cannot run this chunk", heap)
  call := fun _ args _ heap =>
    match args with
    | [.number a, .number b] => (.ok [.number (a + b)], heap)
    | _ => (.error "attempt to perform arithmetic on a nil value", heap)

/-- A heap whose only table is `{[1] = "a", ["1"] = "b"}`: the number 1 in the
array part, the string `"1"` in the string-keyed part. -/
def collisionHeap : List (LTable Int) := [⟨[.string "a"], [("1", .string "b")], []⟩]

/-- A heap whose only table holds itself under the key `self`: `t.self = t`. -/
def selfHeap : List (LTable Int) := [⟨[], [("self", .table 0)], []⟩]

/-- Numbers that are integers, with their decimal rendering: a concrete
instance of the primitives, for the examples. -/
def intPrims : Prims Int where
  ofInt := fun i => i
  toInt := fun x => x
  luaStr := fun x => toString x
  jsStr := fun x => toString x
  ptrStr := fun r => "0x" ++ toString r

/-- The closure that `luaToJsVal` hands to `js.FuncOf` for an interpreter
function: whatever the receiver and the arguments, it returns `js.Undefined()`
and does not touch the interpreter. -/
def luaStubBody (_this : JsVal F) (_args : List (JsVal F)) (L : LState F) :
    JsVal F × LState F :=
  (.undefined, L)

/-- A call of a host value as a function, with a receiver and arguments: the
stub runs its closure, a function of the host program does what `native` says,
and a value that is no function is not called. -/
def Invoke (native : Nat → JsVal F → List (JsVal F) → LState F → JsVal F × LState F)
    (fn this : JsVal F) (args : List (JsVal F)) (L : LState F) : JsVal F × LState F :=
  match fn with
  | .function .luaStub => luaStubBody this args L
  | .function (.native r) => native r this args L
  | _ => (.undefined, L)

/-- The guard of the array loop of `jsValToLua`: the value has type tag
`TypeObject` and its `length` is a host Number. -/
def arrayBranch (p : Prims F) (val : JsVal F) : Prop :=
  val.Type_ = .TypeObject ∧ (val.Get p "length").Type_ = .TypeNumber

/-- A second stand-in for the interpreter, for the examples: the chunk
`return 1, 2` returns two numbers, the chunk `x = 5` binds the global `x` and
returns nothing, the chunk `a = 1; b = 'x'` binds the globals `a` and `b` and
returns nothing, every other chunk fails; every call returns its first
argument. -/
def scriptEngine : Engine Int where
  exec := fun source G heap =>
    if source = "return 1, 2" then (.ok [.number 1, .number 2], heap)
    else if source = "x = 5" then
      (.ok [], heap.set G ((deref heap G).RawSetString "x" (.number 5)))
    else if source = "a = 1; b = 'x'" then
      (.ok [], heap.set G
        (((deref heap G).RawSetString "a" (.number 1)).RawSetString "b" (.string "x")))
    else (.error "cannot run this chunk", heap)
  call := fun _ args _ heap => (.ok [args.headD .nil], heap)

/-- An interpreter state whose table of globals is `{[1] = "a", ["1"] = "b"}`. -/
def collisionState : LState Int := ⟨collisionHeap, 0, [], []⟩

/-- A heap whose only table is `{length = 2}`. -/
def lengthHeap : List (LTable Int) := [⟨[], [("length", .number 2)], []⟩]

/-- A heap whose only table is the sequence `{"a", "b"}`. -/
def seqHeap : List (LTable Int) := [⟨[.string "a", .string "b"], [], []⟩]

/-- The argument sequence `[toInterpreter(a1), ..., toInterpreter(an)]` in the
words of the specification: the conversion of each host argument, in call
order, each made in the state that the conversion before it left.  It is not
taken from the loop of `callFunction`. -/
def toInterpreterSeq (p : Prims F) : List (JsVal F) → LState F → List (LValue F) × LState F
  | [], L => ([], L)
  | a :: rest, L =>
    ((jsValToLua p a L).1 :: (toInterpreterSeq p rest (jsValToLua p a L).2).1,
      (toInterpreterSeq p rest (jsValToLua p a L).2).2)

/-- No value has a metatable. -/
def noMeta : LValue F → LValue F := fun _ => .nil

/-- A third stand-in for the interpreter, for the examples: no chunk runs, and
every call returns the number 42. -/
def indexEngine : Engine Int where
  exec := fun _ _ heap => (.error "cannot run this chunk", heap)
  call := fun _ _ _ heap => (.ok [.number 42], heap)

/-- An interpreter state whose table of globals binds nothing; the table at
address 1 is `{__index = f}` for a function `f`. -/
def indexState : LState Int := ⟨[LTable.empty, ⟨[], [("__index", .function 9)], []⟩], 0, [], []⟩

/-- The metatables that go with `indexState`: the table of globals has the
table at address 1 as its metatable, nothing else has one. -/
def indexMeta : LValue Int → LValue Int := fun v => if v = .table 0 then .table 1 else .nil

end Aux

/-! ## Properties of the outgoing conversion -/

section ToHost

variable {F : Type}

theorem getProp_setProp (k key : String) (v : JsVal F) (ps : List (String × JsVal F)) :
    JsVal.getProp k (JsVal.setProp key v ps) = if key = k then v else JsVal.getProp k ps := by
  induction ps with
  | nil => simp [JsVal.setProp, JsVal.getProp]
  | cons kv rest ih =>
    obtain ⟨k1, v1⟩ := kv
    simp only [JsVal.setProp]
    split_ifs with h1 h2 h2
    all_goals simp_all [JsVal.getProp]

theorem keys_setProp (key : String) (v : JsVal F) (ps : List (String × JsVal F)) :
    (JsVal.setProp key v ps).map Prod.fst =
      if key ∈ ps.map Prod.fst then ps.map Prod.fst else ps.map Prod.fst ++ [key] := by
  induction ps with
  | nil => simp [JsVal.setProp]
  | cons kv rest ih =>
    obtain ⟨k1, v1⟩ := kv
    by_cases h1 : k1 = key
    · simp [JsVal.setProp, h1]
    · have h2 : ¬ key = k1 := fun e => h1 e.symm
      simp only [JsVal.setProp, h1, if_false, List.map_cons, ih, List.mem_cons, h2, false_or]
      split <;> simp

theorem mem_setProp (key : String) (v : JsVal F) (ps : List (String × JsVal F))
    (x : String × JsVal F) (hx : x ∈ JsVal.setProp key v ps) : x = (key, v) ∨ x ∈ ps := by
  induction ps with
  | nil => simpa [JsVal.setProp] using hx
  | cons kv rest ih =>
    obtain ⟨k1, v1⟩ := kv
    by_cases h1 : k1 = key
    · simp only [JsVal.setProp, h1, if_true, List.mem_cons] at hx
      rcases hx with hx | hx
      · exact Or.inl hx
      · exact Or.inr (List.mem_cons_of_mem _ hx)
    · simp only [JsVal.setProp, h1, if_false, List.mem_cons] at hx
      rcases hx with hx | hx
      · exact Or.inr (by simp [hx])
      · rcases ih hx with h | h
        · exact Or.inl h
        · exact Or.inr (List.mem_cons_of_mem _ h)

theorem nodup_setProp (key : String) (v : JsVal F) (ps : List (String × JsVal F))
    (h : (ps.map Prod.fst).Nodup) : ((JsVal.setProp key v ps).map Prod.fst).Nodup := by
  rw [keys_setProp]
  split
  · exact h
  · rename_i hk
    exact List.Nodup.append h (List.nodup_singleton _) (by simpa using hk)

theorem setAll_cons (key : LValue F → String) (conv : LValue F → JsVal F)
    (kv : LValue F × LValue F) (entries : List (LValue F × LValue F))
    (ps : List (String × JsVal F)) :
    setAll key conv (kv :: entries) ps =
      setAll key conv entries (JsVal.setProp (key kv.1) (conv kv.2) ps) := rfl

theorem setAll_append (key : LValue F → String) (conv : LValue F → JsVal F)
    (pre post : List (LValue F × LValue F)) (ps : List (String × JsVal F)) :
    setAll key conv (pre ++ post) ps = setAll key conv post (setAll key conv pre ps) := by
  simp [setAll, List.foldl_append]

theorem keys_setAll (key : LValue F → String) (conv : LValue F → JsVal F)
    (entries : List (LValue F × LValue F)) (ps : List (String × JsVal F)) (s : String) :
    s ∈ (setAll key conv entries ps).map Prod.fst ↔
      s ∈ ps.map Prod.fst ∨ ∃ kv ∈ entries, key kv.1 = s := by
  induction entries generalizing ps with
  | nil => simp [setAll]
  | cons kv rest ih =>
    rw [setAll_cons, ih, keys_setProp]
    by_cases hk : key kv.1 ∈ ps.map Prod.fst
    · simp only [hk, if_true, List.mem_cons, exists_eq_or_imp]
      constructor
      · rintro (h | h)
        · exact Or.inl h
        · exact Or.inr (Or.inr h)
      · rintro (h | h | h)
        · exact Or.inl h
        · exact Or.inl (h ▸ hk)
        · exact Or.inr h
    · simp only [hk, if_false, List.mem_append, List.mem_singleton, List.mem_cons,
        exists_eq_or_imp, List.not_mem_nil, or_false]
      constructor
      · rintro ((h | h) | h)
        · exact Or.inl h
        · exact Or.inr (Or.inl h.symm)
        · exact Or.inr (Or.inr h)
      · rintro (h | h | h)
        · exact Or.inl (Or.inl h)
        · exact Or.inl (Or.inr h.symm)
        · exact Or.inr h

theorem nodup_setAll (key : LValue F → String) (conv : LValue F → JsVal F)
    (entries : List (LValue F × LValue F)) (ps : List (String × JsVal F))
    (h : (ps.map Prod.fst).Nodup) : ((setAll key conv entries ps).map Prod.fst).Nodup := by
  induction entries generalizing ps with
  | nil => simpa [setAll] using h
  | cons kv rest ih =>
    rw [setAll_cons]
    exact ih _ (nodup_setProp _ _ _ h)

theorem getProp_setAll_of_not_mem (key : LValue F → String) (conv : LValue F → JsVal F)
    (entries : List (LValue F × LValue F)) (ps : List (String × JsVal F)) (s : String)
    (h : ∀ kv ∈ entries, key kv.1 ≠ s) :
    JsVal.getProp s (setAll key conv entries ps) = JsVal.getProp s ps := by
  induction entries generalizing ps with
  | nil => simp [setAll]
  | cons kv rest ih =>
    rw [setAll_cons, ih _ (fun x hx => h x (List.mem_cons_of_mem _ hx)), getProp_setProp]
    simp [h kv (List.mem_cons_self _ _)]

theorem getProp_setAll_last (key : LValue F → String) (conv : LValue F → JsVal F)
    (pre post : List (LValue F × LValue F)) (kv : LValue F × LValue F)
    (ps : List (String × JsVal F)) (h : ∀ x ∈ post, key x.1 ≠ key kv.1) :
    JsVal.getProp (key kv.1) (setAll key conv (pre ++ kv :: post) ps) = conv kv.2 := by
  rw [setAll_append, setAll_cons, getProp_setAll_of_not_mem _ _ _ _ _ h, getProp_setProp]
  simp

theorem mem_setAll (key : LValue F → String) (conv : LValue F → JsVal F)
    (entries : List (LValue F × LValue F)) (ps : List (String × JsVal F))
    (x : String × JsVal F) (hx : x ∈ setAll key conv entries ps) :
    x ∈ ps ∨ ∃ kv ∈ entries, x = (key kv.1, conv kv.2) := by
  induction entries generalizing ps with
  | nil => exact Or.inl (by simpa [setAll] using hx)
  | cons kv rest ih =>
    rw [setAll_cons] at hx
    rcases ih _ hx with h | ⟨y, hy, hxy⟩
    · rcases mem_setProp _ _ _ _ h with h | h
      · exact Or.inr ⟨kv, List.mem_cons_self _ _, h⟩
      · exact Or.inl h
    · exact Or.inr ⟨y, List.mem_cons_of_mem _ hy, hxy⟩

theorem ForEach_Set (p : Prims F) (tb : LTable F) (conv : LValue F → JsVal F)
    (ps : List (String × JsVal F)) :
    tb.ForEach p (fun key value (jsObj : JsVal F) => jsObj.Set (key.String p) (conv value))
        (.object ps) =
      .object (setAll (LValue.String p) conv (tb.entries p) ps) := by
  unfold LTable.ForEach setAll
  generalize tb.entries p = es
  induction es generalizing ps with
  | nil => rfl
  | cons kv rest ih => simp only [List.foldl_cons, JsVal.Set]; exact ih _

theorem luaToJsVal_deep (p : Prims F) (heap : List (LTable F)) (val : LValue F) (depth : Int)
    (h : depth > 5) : luaToJsVal p heap val depth = .undefined := by
  rw [luaToJsVal.eq_def]; simp [h]

theorem luaToJsVal_table (p : Prims F) (heap : List (LTable F)) (ref : Nat) (depth : Int)
    (h : depth ≤ 5) : luaToJsVal p heap (.table ref) depth =
      .object (setAll (LValue.String p) (fun v => luaToJsVal p heap v (depth + 1))
        ((deref heap ref).entries p) []) := by
  rw [luaToJsVal.eq_def]
  have h5 : ¬ depth > 5 := by omega
  simp only [h5, dite_false, LValue.Type_]
  simp only [reduceCtorEq, if_false]
  exact ForEach_Set p _ _ []

theorem luaToJsVal_string (p : Prims F) (heap : List (LTable F)) (s : String) (depth : Int)
    (h : depth ≤ 5) : luaToJsVal p heap (.string s) depth = .string s := by
  rw [luaToJsVal.eq_def]
  have h5 : ¬ depth > 5 := by omega
  simp [h5, LValue.Type_]

theorem luaToJsVal_bool (p : Prims F) (heap : List (LTable F)) (b : Bool) (depth : Int)
    (h : depth ≤ 5) : luaToJsVal p heap (.bool b) depth = .boolean b := by
  rw [luaToJsVal.eq_def]
  have h5 : ¬ depth > 5 := by omega
  simp [h5, LValue.Type_]

theorem luaToJsVal_number (p : Prims F) (heap : List (LTable F)) (x : F) (depth : Int)
    (h : depth ≤ 5) : luaToJsVal p heap (.number x) depth = .number x := by
  rw [luaToJsVal.eq_def]
  have h5 : ¬ depth > 5 := by omega
  simp [h5, LValue.Type_]

theorem luaToJsVal_function (p : Prims F) (heap : List (LTable F)) (r : Nat) (depth : Int)
    (h : depth ≤ 5) : luaToJsVal p heap (.function r) depth = .function .luaStub := by
  rw [luaToJsVal.eq_def]
  have h5 : ¬ depth > 5 := by omega
  simp [h5, LValue.Type_]

theorem luaToJsVal_nil (p : Prims F) (heap : List (LTable F)) (depth : Int)
    (h : depth ≤ 5) : luaToJsVal p heap .nil depth = .null := by
  rw [luaToJsVal.eq_def]
  have h5 : ¬ depth > 5 := by omega
  simp [h5, LValue.Type_, LValue.String]


theorem luaToJsVal_other (p : Prims F) (heap : List (LTable F)) (v : LValue F) (depth : Int)
    (h : depth ≤ 5)
    (hv : v.Type_ = .LTNil ∨ v.Type_ = .LTUserData ∨ v.Type_ = .LTThread ∨ v.Type_ = .LTChannel) :
    luaToJsVal p heap v depth =
      if v.String p = "nil" then .null else .string (v.String p) := by
  rw [luaToJsVal.eq_def]
  have h5 : ¬ depth > 5 := by omega
  cases v <;> simp [LValue.Type_] at hv <;> simp [h5, LValue.Type_]

theorem luaToJsVal_ne_undefined (p : Prims F) (heap : List (LTable F)) (v : LValue F)
    (depth : Int) (h : depth ≤ 5) : luaToJsVal p heap v depth ≠ .undefined := by
  cases v with
  | nil => rw [luaToJsVal_nil p heap depth h]; simp
  | bool b => rw [luaToJsVal_bool p heap b depth h]; simp
  | number x => rw [luaToJsVal_number p heap x depth h]; simp
  | string s => rw [luaToJsVal_string p heap s depth h]; simp
  | table r => rw [luaToJsVal_table p heap r depth h]; simp
  | function r => rw [luaToJsVal_function p heap r depth h]; simp
  | userdata r => rw [luaToJsVal_other p heap _ depth h (by simp [LValue.Type_])]; split <;> simp
  | thread r => rw [luaToJsVal_other p heap _ depth h (by simp [LValue.Type_])]; split <;> simp
  | channel r => rw [luaToJsVal_other p heap _ depth h (by simp [LValue.Type_])]; split <;> simp

theorem luaToJsVal_not_table (p : Prims F) (heap : List (LTable F)) (v : LValue F)
    (depth : Int) (hv : v.Type_ ≠ .LTTable) (n : Nat) :
    membersAt (n + 1) (luaToJsVal p heap v depth) = [] := by
  by_cases h5 : depth > 5
  · rw [luaToJsVal_deep p heap v depth h5]; rfl
  · have h : depth ≤ 5 := by omega
    cases v with
    | nil => rw [luaToJsVal_nil p heap depth h]; rfl
    | bool b => rw [luaToJsVal_bool p heap b depth h]; rfl
    | number x => rw [luaToJsVal_number p heap x depth h]; rfl
    | string s => rw [luaToJsVal_string p heap s depth h]; rfl
    | table r => simp [LValue.Type_] at hv
    | function r => rw [luaToJsVal_function p heap r depth h]; rfl
    | userdata r =>
      rw [luaToJsVal_other p heap _ depth h (by simp [LValue.Type_])]; split <;> rfl
    | thread r =>
      rw [luaToJsVal_other p heap _ depth h (by simp [LValue.Type_])]; split <;> rfl
    | channel r =>
      rw [luaToJsVal_other p heap _ depth h (by simp [LValue.Type_])]; split <;> rfl

theorem membersAt_luaToJsVal (p : Prims F) (heap : List (LTable F)) (n : Nat) :
    ∀ (v : LValue F) (d : Int) (x : JsVal F), x ∈ membersAt n (luaToJsVal p heap v d) →
      ∃ w, x = luaToJsVal p heap w (d + n) := by
  induction n with
  | zero =>
    intro v d x hx
    refine ⟨v, ?_⟩
    simpa [membersAt] using hx
  | succ n ih =>
    intro v d x hx
    by_cases hv : v.Type_ = .LTTable
    · by_cases h5 : d > 5
      · rw [luaToJsVal_deep p heap v d h5] at hx
        simp [membersAt] at hx
      · cases v <;> simp [LValue.Type_] at hv
        rename_i r
        rw [luaToJsVal_table p heap r d (by omega)] at hx
        simp only [membersAt, List.mem_flatMap] at hx
        obtain ⟨kv, hkv, hxm⟩ := hx
        rcases mem_setAll _ _ _ _ _ hkv with h | ⟨e, -, he⟩
        · simp at h
        · rw [he] at hxm
          obtain ⟨w, hw⟩ := ih e.2 (d + 1) x hxm
          refine ⟨w, ?_⟩
          rw [hw]
          congr 1
          push_cast
          ring
    · rw [luaToJsVal_not_table p heap v d hv n] at hx
      simp at hx

/-- C1 (as amended): for every table reference and every depth `d ≤ 5`,
`luaToJsVal` yields a host object (never a host array) whose keys are exactly
the string renderings of the keys that `ForEach` enumerates; an entry `(k, v)`
whose rendering is not repeated by an entry enumerated after it is found under
that rendering as `luaToJsVal v (d+1)`, so every entry is present when the
renderings are pairwise distinct; and the table `{1:"a", 2:"b"}` becomes the
object `{"1":"a", "2":"b"}` at depth 0. -/
theorem luaToJsVal_table_object (p : Prims F) (heap : List (LTable F)) (ref : Nat) (d : Int)
    (hd : d ≤ 5) :
    ∃ props : List (String × JsVal F),
      luaToJsVal p heap (.table ref) d = .object props ∧
      (props.map Prod.fst).Nodup ∧
      (∀ s, s ∈ props.map Prod.fst ↔ ∃ kv ∈ (deref heap ref).entries p, kv.1.String p = s) ∧
      (∀ pre k v post, (deref heap ref).entries p = pre ++ (k, v) :: post →
        (∀ kv ∈ post, kv.1.String p ≠ k.String p) →
        (JsVal.object props).Get p (k.String p) = luaToJsVal p heap v (d + 1)) ∧
      ((((deref heap ref).entries p).map (fun kv => kv.1.String p)).Nodup →
        ∀ k v, (k, v) ∈ (deref heap ref).entries p →
          (JsVal.object props).Get p (k.String p) = luaToJsVal p heap v (d + 1)) ∧
      (d = 0 → (deref heap ref).entries p =
          [(.number (p.ofInt 1), .string "a"), (.number (p.ofInt 2), .string "b")] →
        p.luaStr (p.ofInt 1) = "1" → p.luaStr (p.ofInt 2) = "2" →
        props = [("1", .string "a"), ("2", .string "b")]) := by
  refine ⟨_, luaToJsVal_table p heap ref d hd, ?_, ?_, ?_, ?_, ?_⟩
  · exact nodup_setAll _ _ _ _ (by simp)
  · intro s
    rw [keys_setAll]
    simp
  · intro pre k v post he hpost
    rw [he]
    exact getProp_setAll_last (LValue.String p) _ pre post (k, v) [] hpost
  · intro hnd k v hkv
    obtain ⟨pre, post, he⟩ := List.append_of_mem hkv
    rw [he] at hnd ⊢
    refine getProp_setAll_last (LValue.String p) _ pre post (k, v) [] ?_
    intro x hx hxe
    rw [List.map_append, List.map_cons] at hnd
    have h1 := (List.nodup_append.mp hnd).2.1
    have h2 := (List.nodup_cons.mp h1).1
    exact h2 (by rw [← hxe]; exact List.mem_map_of_mem _ hx)
  · intro h0 he h1 h2
    subst h0
    have hs : ∀ s : String, luaToJsVal p heap (.string s) 1 = .string s :=
      fun s => luaToJsVal_string p heap s 1 (by decide)
    rw [he]
    simp [setAll, JsVal.setProp, LValue.String, h1, h2, hs]

/-- Witness for C1: the table stored as the array part `["a", "b"]`. -/
theorem luaToJsVal_table_object_witness :
    luaToJsVal intPrims [⟨[.string "a", .string "b"], [], []⟩] (.table 0) 0 =
      .object [("1", .string "a"), ("2", .string "b")] := by
  obtain ⟨props, h1, -, -, -, -, h6⟩ :=
    luaToJsVal_table_object intPrims [⟨[.string "a", .string "b"], [], []⟩] 0 0 (by decide)
  rw [h1, h6 rfl (by decide) (by decide) (by decide)]

/-- Counterexample to C1 as stated: the table `{[1]="a", ["1"]="b"}` has the
entry `(1, "a")`, but both keys render as `"1"` and the object holds `"b"`
under the rendering of `1`, not the conversion `"a"` of the entry's value. -/
theorem luaToJsVal_table_key_collision :
    (LValue.number 1, LValue.string "a") ∈ (deref collisionHeap 0).entries intPrims ∧
    (luaToJsVal intPrims collisionHeap (.table 0) 0).Get intPrims
      (LValue.String intPrims (.number 1)) = .string "b" ∧
    luaToJsVal intPrims collisionHeap (.string "a") (0 + 1) = .string "a" ∧
    (luaToJsVal intPrims collisionHeap (.table 0) 0).Get intPrims
      (LValue.String intPrims (.number 1)) ≠
        luaToJsVal intPrims collisionHeap (.string "a") (0 + 1) := by
  have hs : ∀ s : String, luaToJsVal intPrims collisionHeap (.string s) 1 = .string s :=
    fun s => luaToJsVal_string _ _ s 1 (by decide)
  have hget : (luaToJsVal intPrims collisionHeap (.table 0) 0).Get intPrims
      (LValue.String intPrims (.number 1)) = .string "b" := by
    rw [luaToJsVal_table _ _ _ _ (by decide)]
    have h2 : intPrims.luaStr 1 = "1" := by decide
    have he : (deref collisionHeap 0).entries intPrims =
        [(.number 1, .string "a"), (.string "1", .string "b")] := by decide
    rw [he]
    simp [setAll, JsVal.setProp, JsVal.Get, JsVal.getProp, h2, hs, LValue.String]
  refine ⟨by decide, hget, hs "a", ?_⟩
  rw [hget]
  have h3 : luaToJsVal intPrims collisionHeap (.string "a") (0 + 1) = .string "a" := hs "a"
  rw [h3]
  simp

/-- C2: at every depth `d > 5` every interpreter value converts to Undefined;
so in a conversion started at depth 0 every host value found below exactly 6
enclosing objects is Undefined, while every host value found below `n ≤ 5`
enclosing objects is the depth-`n` conversion of an interpreter value, is not
Undefined, and follows the ordinary rules (Boolean, Number, String, stub for a
Function, Null for Nil, an object with one `Set` per entry for a Table); a
Table at depth 5 becomes an object whose keys are the renderings of the
table's keys and whose values are all Undefined. -/
theorem luaToJsVal_depth_bound (p : Prims F) (heap : List (LTable F)) (v : LValue F) :
    (∀ d : Int, d > 5 → luaToJsVal p heap v d = .undefined) ∧
    (∀ x ∈ membersAt 6 (luaToJsVal p heap v 0), x = .undefined) ∧
    (∀ n : Nat, n ≤ 5 → ∀ x ∈ membersAt n (luaToJsVal p heap v 0),
      (∃ w, x = luaToJsVal p heap w n) ∧ x ≠ .undefined) ∧
    (∀ d : Int, d ≤ 5 →
      (∀ b, luaToJsVal p heap (.bool b) d = .boolean b) ∧
      (∀ x, luaToJsVal p heap (.number x) d = .number x) ∧
      (∀ s, luaToJsVal p heap (.string s) d = .string s) ∧
      (∀ r, luaToJsVal p heap (.function r) d = .function .luaStub) ∧
      luaToJsVal p heap .nil d = .null ∧
      (∀ r, luaToJsVal p heap (.table r) d =
        .object (setAll (LValue.String p) (fun w => luaToJsVal p heap w (d + 1))
          ((deref heap r).entries p) []))) ∧
    (∀ r, ∃ props, luaToJsVal p heap (.table r) 5 = .object props ∧
      (∀ kv ∈ props, kv.2 = .undefined) ∧
      (∀ s, s ∈ props.map Prod.fst ↔ ∃ kv ∈ (deref heap r).entries p, kv.1.String p = s)) := by
  refine ⟨fun d hd => luaToJsVal_deep p heap v d hd, ?_, ?_, ?_, ?_⟩
  · intro x hx
    obtain ⟨w, hw⟩ := membersAt_luaToJsVal p heap 6 v 0 x hx
    rw [hw]
    exact luaToJsVal_deep p heap w _ (by decide)
  · intro n hn x hx
    obtain ⟨w, hw⟩ := membersAt_luaToJsVal p heap n v 0 x hx
    rw [zero_add] at hw
    refine ⟨⟨w, hw⟩, ?_⟩
    rw [hw]
    exact luaToJsVal_ne_undefined p heap w n (by omega)
  · intro d hd
    exact ⟨fun b => luaToJsVal_bool p heap b d hd, fun x => luaToJsVal_number p heap x d hd,
      fun s => luaToJsVal_string p heap s d hd, fun r => luaToJsVal_function p heap r d hd,
      luaToJsVal_nil p heap d hd, fun r => luaToJsVal_table p heap r d hd⟩
  · intro r
    refine ⟨_, luaToJsVal_table p heap r 5 (by decide), ?_, ?_⟩
    · intro kv hkv
      rcases mem_setAll _ _ _ _ _ hkv with h | ⟨e, -, he⟩
      · simp at h
      · rw [he]
        exact luaToJsVal_deep p heap e.2 _ (by decide)
    · intro s
      rw [keys_setAll]
      simp

theorem luaToJsVal_self (p : Prims F) (heap : List (LTable F)) (r : Nat) (d : Int) (hd : d ≤ 5)
    (he : (deref heap r).entries p = [(.string "self", .table r)]) :
    luaToJsVal p heap (.table r) d = .object [("self", luaToJsVal p heap (.table r) (d + 1))] := by
  rw [luaToJsVal_table p heap r d hd, he]
  simp [setAll, JsVal.setProp, LValue.String]

theorem luaToJsVal_self_six (p : Prims F) (heap : List (LTable F)) (r : Nat)
    (he : (deref heap r).entries p = [(.string "self", .table r)]) :
    luaToJsVal p heap (.table r) 0 =
      .object [("self", .object [("self", .object [("self", .object [("self",
        .object [("self", .object [("self", .undefined)])])])])])] := by
  rw [luaToJsVal_self p heap r 0 (by decide) he, luaToJsVal_self p heap r (0 + 1) (by decide) he,
    luaToJsVal_self p heap r (0 + 1 + 1) (by decide) he,
    luaToJsVal_self p heap r (0 + 1 + 1 + 1) (by decide) he,
    luaToJsVal_self p heap r (0 + 1 + 1 + 1 + 1) (by decide) he,
    luaToJsVal_self p heap r (0 + 1 + 1 + 1 + 1 + 1) (by decide) he,
    luaToJsVal_deep p heap _ (0 + 1 + 1 + 1 + 1 + 1 + 1) (by decide)]

/-- Witness for C2: in the conversion of the table with `t.self = t` there is a
value below 6 enclosing objects, and it is Undefined. -/
theorem luaToJsVal_depth_bound_witness :
    ∃ x, x ∈ membersAt 6 (luaToJsVal intPrims selfHeap (.table 0) 0) ∧ x = .undefined := by
  have hm : JsVal.undefined ∈ membersAt 6 (luaToJsVal intPrims selfHeap (.table 0) 0) := by
    rw [luaToJsVal_self_six intPrims selfHeap 0 (by decide)]
    simp [membersAt]
  exact ⟨.undefined, hm, (luaToJsVal_depth_bound intPrims selfHeap (.table 0)).2.1 _ hm⟩

theorem ForEach_fuel (p : Prims F) (tb : LTable F) (g : LValue F → JsVal F)
    (rec : LValue F → Option (JsVal F)) (o : JsVal F)
    (h : ∀ kv ∈ tb.entries p, rec kv.2 = some (g kv.2)) :
    tb.ForEach p
      (fun key value (jsObj : Option (JsVal F)) =>
        match jsObj, rec value with
        | some o, some w => some (o.Set (key.String p) w)
        | _, _ => none)
      (some o) =
    some (tb.ForEach p (fun key value (jsObj : JsVal F) => jsObj.Set (key.String p) (g value)) o) := by
  unfold LTable.ForEach
  generalize tb.entries p = es at h
  induction es generalizing o with
  | nil => rfl
  | cons kv rest ih =>
    simp only [List.foldl_cons, h kv (List.mem_cons_self _ _)]
    exact ih _ (fun x hx => h x (List.mem_cons_of_mem _ hx))

theorem luaToJsValFuel_eq (p : Prims F) (heap : List (LTable F)) (fuel : Nat) :
    ∀ (v : LValue F) (d : Int), (6 - d).toNat < fuel →
      luaToJsValFuel p heap fuel v d = some (luaToJsVal p heap v d) := by
  induction fuel with
  | zero => intro v d h; omega
  | succ fuel ih =>
    intro v d h
    by_cases h5 : d > 5
    · rw [luaToJsVal_deep p heap v d h5]
      simp [luaToJsValFuel, h5]
    · have hd : d ≤ 5 := by omega
      cases v with
      | nil => rw [luaToJsVal_nil p heap d hd]; simp [luaToJsValFuel, h5, LValue.Type_, LValue.String]
      | bool b => rw [luaToJsVal_bool p heap b d hd]; simp [luaToJsValFuel, h5, LValue.Type_]
      | number x => rw [luaToJsVal_number p heap x d hd]; simp [luaToJsValFuel, h5, LValue.Type_]
      | string s => rw [luaToJsVal_string p heap s d hd]; simp [luaToJsValFuel, h5, LValue.Type_]
      | function r => rw [luaToJsVal_function p heap r d hd]; simp [luaToJsValFuel, h5, LValue.Type_]
      | userdata r =>
        rw [luaToJsVal_other p heap _ d hd (by simp [LValue.Type_])]
        simp only [luaToJsValFuel, h5, LValue.Type_]
        simp only [reduceCtorEq, if_false]
        split <;> rfl
      | thread r =>
        rw [luaToJsVal_other p heap _ d hd (by simp [LValue.Type_])]
        simp only [luaToJsValFuel, h5, LValue.Type_]
        simp only [reduceCtorEq, if_false]
        split <;> rfl
      | channel r =>
        rw [luaToJsVal_other p heap _ d hd (by simp [LValue.Type_])]
        simp only [luaToJsValFuel, h5, LValue.Type_]
        simp only [reduceCtorEq, if_false]
        split <;> rfl
      | table r =>
        rw [luaToJsVal_table p heap r d hd, ← ForEach_Set]
        simp only [luaToJsValFuel, h5, LValue.Type_]
        simp only [reduceCtorEq, if_false]
        exact ForEach_fuel p _ (fun w => luaToJsVal p heap w (d + 1)) _ _
          (fun kv _ => ih kv.2 (d + 1) (by omega))

theorem luaToJsValFuel_self_none (p : Prims F) (heap : List (LTable F)) (r : Nat)
    (he : (deref heap r).entries p = [(.string "self", .table r)]) (fuel : Nat) :
    ∀ d : Int, d ≤ 6 → (fuel : Int) ≤ 6 - d → luaToJsValFuel p heap fuel (.table r) d = none := by
  induction fuel with
  | zero => intro d _ _; rfl
  | succ fuel ih =>
    intro d h6 hf
    have h5 : ¬ d > 5 := by push_cast at hf; omega
    have hrec := ih (d + 1) (by omega) (by push_cast at hf; omega)
    simp only [luaToJsValFuel, h5, LValue.Type_]
    simp only [reduceCtorEq, if_false]
    simp [LTable.ForEach, he, hrec]

/-- C5: `luaToJsVal` is a total function of the value, the heap and the depth,
whatever the heap (cyclic or not); run with a budget of nested calls, a
conversion started at depth `d` completes within `6 - d + 1` nested calls and
yields the same result, so one started at depth 0 never nests more than 7
calls; and for a table with `t.self = t` the result is 6 nested host objects
whose innermost `self` is Undefined, reached by a chain of exactly 7 calls (6
do not suffice). -/
theorem luaToJsVal_terminates (p : Prims F) (heap : List (LTable F)) (v : LValue F) :
    luaToJsValFuel p heap 7 v 0 = some (luaToJsVal p heap v 0) ∧
    (∀ (d : Int) (fuel : Nat), (6 - d).toNat < fuel →
      luaToJsValFuel p heap fuel v d = some (luaToJsVal p heap v d)) ∧
    (∀ r, (deref heap r).entries p = [(.string "self", .table r)] →
      luaToJsVal p heap (.table r) 0 =
        .object [("self", .object [("self", .object [("self", .object [("self",
          .object [("self", .object [("self", .undefined)])])])])])] ∧
      luaToJsValFuel p heap 6 (.table r) 0 = none) := by
  refine ⟨luaToJsValFuel_eq p heap 7 v 0 (by decide),
    fun d fuel h => luaToJsValFuel_eq p heap fuel v d h, ?_⟩
  intro r he
  exact ⟨luaToJsVal_self_six p heap r he,
    luaToJsValFuel_self_none p heap r he 6 0 (by decide) (by decide)⟩

/-- Witness for C5: the heap whose only table holds itself under `self`. -/
theorem luaToJsVal_terminates_witness :
    luaToJsValFuel intPrims selfHeap 7 (.table 0) 0 =
      some (.object [("self", .object [("self", .object [("self", .object [("self",
        .object [("self", .object [("self", .undefined)])])])])])]) ∧
    luaToJsValFuel intPrims selfHeap 6 (.table 0) 0 = none := by
  have h := luaToJsVal_terminates intPrims selfHeap (.table 0)
  have h6 := h.2.2 0 (by decide)
  exact ⟨by rw [h.1, h6.1], h6.2⟩

end ToHost

/-! ## Properties of the incoming conversion -/

section ToInterpreter

variable {F : Type}

theorem deref_append_cons (h : List (LTable F)) (tb : LTable F) (rest : List (LTable F)) :
    deref (h ++ tb :: rest) h.length = tb := by
  induction h with
  | nil => rfl
  | cons x xs ih => simpa [deref] using ih

theorem set_append_cons (h : List (LTable F)) (tb tb2 : LTable F) (rest : List (LTable F)) :
    (h ++ tb :: rest).set h.length tb2 = h ++ tb2 :: rest := by
  induction h with
  | nil => rfl
  | cons x xs ih => simp [ih]

theorem jsValToLua_object_eq (p : Prims F) (val : JsVal F) (L : LState F)
    (hv : val.Type_ = .TypeObject) :
    jsValToLua p val L =
      if (val.Get p "length").Type_ = .TypeNumber then
        (.table L.heap.length,
          appendLoop p val L.heap.length ((val.Get p "length").Int p).toNat L.NewTable.2)
      else
        (.table L.heap.length,
          setLoop p val (Object_keys val) L.heap.length
            (((Object_keys val).Get p "length").Int p).toNat L.NewTable.2) := by
  rw [jsValToLua.eq_def]
  split
  all_goals first
    | rfl
    | (rename_i h; rw [hv] at h; cases h)
    | (rename_i h; exact absurd hv h)

theorem jsValToLua_scalar (p : Prims F) (val : JsVal F) (L : LState F)
    (hv : val.Type_ ≠ .TypeObject) : (jsValToLua p val L).2 = L := by
  rw [jsValToLua.eq_def]
  cases val <;> simp [JsVal.Type_] at hv <;> simp [JsVal.Type_]

theorem rank_Index_lt (val : JsVal F) (i : Int) (h : val.Type_ = .TypeObject) :
    (val.Index i).rank < val.rank := by
  have hp : ∀ (key : String) (props : List (String × JsVal F)),
      (JsVal.getProp key props).rank < rankProps props + 1 := by
    intro key props
    induction props with
    | nil => simp [JsVal.getProp, JsVal.rank]
    | cons kv rest ih =>
      obtain ⟨k, v⟩ := kv
      simp only [JsVal.getProp, rankProps]
      split <;> omega
  have he : ∀ (elems : List (JsVal F)) (j : Nat),
      (elems.getD j .undefined).rank < rankElems elems + 1 := by
    intro elems
    induction elems with
    | nil => intro j; simp [JsVal.rank]
    | cons v rest ih =>
      intro j
      cases j with
      | zero => simp only [List.getD_cons_zero, rankElems]; omega
      | succ j =>
        have := ih j
        simp only [List.getD_cons_succ, rankElems]; omega
  cases val <;> simp [JsVal.Type_] at h
  · simp only [JsVal.Index, JsVal.rank]; split
    · exact hp _ _
    · simp [JsVal.rank]
  · simp only [JsVal.Index, JsVal.rank]; split
    · exact he _ _
    · simp [JsVal.rank]
  · simp [JsVal.Index, JsVal.rank]

theorem rank_Get_lt (p : Prims F) (val : JsVal F) (key : String)
    (h : val.Type_ = .TypeObject) : (val.Get p key).rank < val.rank := by
  have hp : ∀ (key : String) (props : List (String × JsVal F)),
      (JsVal.getProp key props).rank < rankProps props + 1 := by
    intro key props
    induction props with
    | nil => simp [JsVal.getProp, JsVal.rank]
    | cons kv rest ih =>
      obtain ⟨k, v⟩ := kv
      simp only [JsVal.getProp, rankProps]
      split <;> omega
  cases val <;> simp [JsVal.Type_] at h
  · exact hp _ _
  · simp only [JsVal.Get]; split <;> simp [JsVal.rank]
  · simp only [JsVal.Get]; split <;> simp [JsVal.rank]

theorem appendLoop_succ (p : Prims F) (val : JsVal F) (t n : Nat) (L : LState F) :
    appendLoop p val t (n + 1) L =
      (jsValToLua p (val.Index (n : Int)) (appendLoop p val t n L)).2.Append t
        (jsValToLua p (val.Index (n : Int)) (appendLoop p val t n L)).1 := by
  simp [appendLoop, List.range_succ, List.foldl_append]

theorem setLoop_succ (p : Prims F) (val keys : JsVal F) (t n : Nat) (L : LState F) :
    setLoop p val keys t (n + 1) L =
      (jsValToLua p (val.Get p ((keys.Index (n : Int)).String p))
          (setLoop p val keys t n L)).2.RawSetString t ((keys.Index (n : Int)).String p)
        (jsValToLua p (val.Get p ((keys.Index (n : Int)).String p)) (setLoop p val keys t n L)).1 := by
  simp [setLoop, List.range_succ, List.foldl_append]

theorem Append_frame (L S : LState F) (tb : LTable F) (rest extra : List (LTable F))
    (v : LValue F) (hS : S = { L with heap := L.heap ++ tb :: rest }) :
    ({ S with heap := S.heap ++ extra } : LState F).Append L.heap.length v =
      { L with heap := L.heap ++ tb.Append v :: (rest ++ extra) } := by
  subst hS
  simp only [LState.Append, List.append_assoc, List.cons_append, deref_append_cons,
    set_append_cons]

theorem RawSetString_frame (L S : LState F) (tb : LTable F) (rest extra : List (LTable F))
    (key : String) (v : LValue F) (hS : S = { L with heap := L.heap ++ tb :: rest }) :
    ({ S with heap := S.heap ++ extra } : LState F).RawSetString L.heap.length key v =
      { L with heap := L.heap ++ tb.RawSetString key v :: (rest ++ extra) } := by
  subst hS
  simp only [LState.RawSetString, List.append_assoc, List.cons_append, deref_append_cons,
    set_append_cons]

theorem appendLoop_inv (p : Prims F) (val : JsVal F) (L : LState F)
    (hframe : ∀ (i : Nat) (S : LState F), ∃ extra,
      (jsValToLua p (val.Index (i : Int)) S).2 = { S with heap := S.heap ++ extra })
    (n : Nat) :
    ∃ rest, appendLoop p val L.heap.length n L.NewTable.2 =
      { L with heap := L.heap ++ appended p val L n :: rest } := by
  induction n with
  | zero => exact ⟨[], rfl⟩
  | succ n ih =>
    obtain ⟨rest, hrest⟩ := ih
    obtain ⟨extra, hextra⟩ := hframe n (appendLoop p val L.heap.length n L.NewTable.2)
    refine ⟨rest ++ extra, ?_⟩
    rw [appendLoop_succ, hextra, Append_frame L _ _ rest extra _ hrest]
    simp [appended, List.range_succ, List.foldl_append, arrayItem]

theorem setLoop_inv (p : Prims F) (val : JsVal F) (L : LState F)
    (hframe : ∀ (key : String) (S : LState F), ∃ extra,
      (jsValToLua p (val.Get p key) S).2 = { S with heap := S.heap ++ extra })
    (n : Nat) :
    ∃ rest, setLoop p val (Object_keys val) L.heap.length n L.NewTable.2 =
      { L with heap := L.heap ++ stored p val L n :: rest } := by
  induction n with
  | zero => exact ⟨[], rfl⟩
  | succ n ih =>
    obtain ⟨rest, hrest⟩ := ih
    obtain ⟨extra, hextra⟩ := hframe (propKey p val n)
      (setLoop p val (Object_keys val) L.heap.length n L.NewTable.2)
    refine ⟨rest ++ extra, ?_⟩
    rw [setLoop_succ]
    change (LState.RawSetString (jsValToLua p (val.Get p (propKey p val n)) _).2 _
      (propKey p val n) _) = _
    rw [hextra, RawSetString_frame L _ _ rest extra _ _ hrest]
    simp [stored, List.range_succ, List.foldl_append, propItem, propKey]

theorem jsValToLua_frame (p : Prims F) (n : Nat) :
    ∀ (val : JsVal F), val.rank ≤ n → ∀ L : LState F, ∃ extra,
      (jsValToLua p val L).2 = { L with heap := L.heap ++ extra } := by
  induction n with
  | zero =>
    intro val hr L
    have hv : val.Type_ ≠ .TypeObject := by
      cases val <;> simp [JsVal.Type_] <;> simp [JsVal.rank] at hr
    exact ⟨[], by rw [jsValToLua_scalar p val L hv]; simp⟩
  | succ n ih =>
    intro val hr L
    by_cases hv : val.Type_ = .TypeObject
    · rw [jsValToLua_object_eq p val L hv]
      split
      · obtain ⟨rest, h⟩ := appendLoop_inv p val L
          (fun i S => ih _ (by have := rank_Index_lt val i hv; omega) S)
          ((val.Get p "length").Int p).toNat
        exact ⟨_, h⟩
      · obtain ⟨rest, h⟩ := setLoop_inv p val L
          (fun key S => ih _ (by have := rank_Get_lt p val key hv; omega) S)
          (((Object_keys val).Get p "length").Int p).toNat
        exact ⟨_, h⟩
    · exact ⟨[], by rw [jsValToLua_scalar p val L hv]; simp⟩

theorem jsValToLua_extends (p : Prims F) (val : JsVal F) (L : LState F) :
    ∃ extra, (jsValToLua p val L).2 = { L with heap := L.heap ++ extra } :=
  jsValToLua_frame p val.rank val (le_refl _) L

theorem Append_of_nonNil (arr : List (LValue F)) (sd : List (String × LValue F))
    (d : List (LValue F × LValue F)) (v : LValue F) (hall : ∀ x ∈ arr, x.isNil = false) :
    (⟨arr, sd, d⟩ : LTable F).Append v = ⟨arr ++ (if v.isNil then [] else [v]), sd, d⟩ := by
  unfold LTable.Append
  by_cases hv : v.isNil = true
  · simp [hv]
  · have hc : arr.length = 0 ∨ (arr.getLast?.map LValue.isNil) ≠ some true := by
      cases h : arr.getLast? with
      | none => left; simpa using h
      | some x =>
        right
        have hx : x ∈ arr := List.mem_of_getLast?_eq_some h
        simp [hall x hx]
    simp only [hv]
    rw [if_pos hc]
    simp

theorem appended_eq (p : Prims F) (val : JsVal F) (L : LState F) (n : Nat) :
    appended p val L n =
      ⟨((List.range n).map (arrayItem p val L)).filter (fun v => !v.isNil), [], []⟩ := by
  induction n with
  | zero => rfl
  | succ n ih =>
    have hstep : appended p val L (n + 1) = (appended p val L n).Append (arrayItem p val L n) := by
      simp [appended, List.range_succ, List.foldl_append]
    rw [hstep, ih, Append_of_nonNil _ _ _ _ (by
      intro x hx
      have := (List.mem_filter.mp hx).2
      simpa using this)]
    rw [List.range_succ, List.map_append, List.filter_append]
    congr 1
    congr 1
    by_cases hv : (arrayItem p val L n).isNil = true <;> simp [hv]

theorem jsValToLua_boolean (p : Prims F) (b : Bool) (L : LState F) :
    jsValToLua p (.boolean b) L = (.bool b, L) := by
  rw [jsValToLua.eq_def]; simp [JsVal.Type_, JsVal.Bool]

theorem jsValToLua_number (p : Prims F) (x : F) (L : LState F) :
    jsValToLua p (.number x) L = (.number x, L) := by
  rw [jsValToLua.eq_def]; simp [JsVal.Type_, JsVal.Float]

theorem jsValToLua_string (p : Prims F) (s : String) (L : LState F) :
    jsValToLua p (.string s) L = (.string s, L) := by
  rw [jsValToLua.eq_def]; simp [JsVal.Type_, JsVal.String]

theorem jsValToLua_null (p : Prims F) (L : LState F) :
    jsValToLua p .null L = (.nil, L) := by
  rw [jsValToLua.eq_def]; simp [JsVal.Type_]

theorem jsValToLua_undefined (p : Prims F) (L : LState F) :
    jsValToLua p .undefined L = (.nil, L) := by
  rw [jsValToLua.eq_def]; simp [JsVal.Type_]

theorem jsValToLua_not_nil (p : Prims F) (val : JsVal F) (L : LState F)
    (h : val.Type_ = .TypeBoolean ∨ val.Type_ = .TypeNumber ∨ val.Type_ = .TypeString ∨
      val.Type_ = .TypeObject) : (jsValToLua p val L).1.isNil = false := by
  by_cases hv : val.Type_ = .TypeObject
  · rw [jsValToLua_object_eq p val L hv]; split <;> rfl
  · cases val <;> simp [JsVal.Type_] at h hv
    · rw [jsValToLua_boolean]; rfl
    · rw [jsValToLua_number]; rfl
    · rw [jsValToLua_string]; rfl

theorem jsValToLua_array_eq (p : Prims F) (elems : List (JsVal F)) (L : LState F)
    (hlen : p.toInt (p.ofInt elems.length) = elems.length) :
    ∃ rest, jsValToLua p (.array elems) L =
      (.table L.heap.length, { L with heap := L.heap ++
        ⟨((List.range elems.length).map (arrayItem p (.array elems) L)).filter
          (fun v => !v.isNil), [], []⟩ :: rest }) := by
  obtain ⟨rest, h⟩ := appendLoop_inv p (.array elems) L
    (fun i S => jsValToLua_extends p _ S) elems.length
  refine ⟨rest, ?_⟩
  rw [jsValToLua_object_eq p (.array elems) L rfl, ← appended_eq, ← h]
  simp [JsVal.Get, JsVal.Type_, JsVal.Int, hlen]

theorem filter_nonNil_eq (items : List (LValue F)) (h : ∀ v ∈ items, v.isNil = false) :
    items.filter (fun v => !v.isNil) = items := by
  rw [List.filter_eq_self]
  intro v hv
  simp [h v hv]

theorem arrayItem_array (p : Prims F) (elems : List (JsVal F)) (L : LState F) (i : Nat) :
    arrayItem p (.array elems) L i =
      (jsValToLua p (elems.getD i .undefined)
        (appendLoop p (.array elems) L.heap.length i L.NewTable.2)).1 := by
  simp [arrayItem, JsVal.Index]

/-- C3 (as amended): for a host array `A` of length `n`, `jsValToLua` returns a
reference to a fresh table (allocated behind the tables that exist, which stay
as they are) whose array part holds, in order, those of the conversions of
`A[0]`, ..., `A[n-1]` that are not Nil, and which has no other entries; when
every element is a Boolean, Number, String or object, so that no conversion is
Nil, the entry at index `i+1` is the conversion of `A[i]` for every `i < n`. -/
theorem jsValToLua_array (p : Prims F) (elems : List (JsVal F)) (L : LState F)
    (hlen : p.toInt (p.ofInt elems.length) = elems.length) :
    ∃ tb rest,
      jsValToLua p (.array elems) L =
        (.table L.heap.length, { L with heap := L.heap ++ tb :: rest }) ∧
      tb.array = ((List.range elems.length).map (arrayItem p (.array elems) L)).filter
        (fun v => !v.isNil) ∧
      tb.strdict = [] ∧ tb.dict = [] ∧
      (∀ i, arrayItem p (.array elems) L i =
        (jsValToLua p (elems.getD i .undefined)
          (appendLoop p (.array elems) L.heap.length i L.NewTable.2)).1) ∧
      ((∀ e ∈ elems, e.Type_ = .TypeBoolean ∨ e.Type_ = .TypeNumber ∨ e.Type_ = .TypeString ∨
          e.Type_ = .TypeObject) →
        ∀ i, i < elems.length → tb.RawGetInt (i + 1) = arrayItem p (.array elems) L i) := by
  obtain ⟨rest, h⟩ := jsValToLua_array_eq p elems L hlen
  refine ⟨_, rest, h, rfl, rfl, rfl, arrayItem_array p elems L, ?_⟩
  intro hall i hi
  have hitems : ∀ v ∈ (List.range elems.length).map (arrayItem p (.array elems) L),
      v.isNil = false := by
    intro v hv
    obtain ⟨j, hj, rfl⟩ := List.mem_map.mp hv
    rw [arrayItem_array]
    apply jsValToLua_not_nil
    apply hall
    rw [List.getD_eq_getElem _ _ (List.mem_range.mp hj)]
    exact List.getElem_mem _
  simp only [LTable.RawGetInt, filter_nonNil_eq _ hitems]
  simp [List.getD_eq_getElem?_getD, hi]

/-- Witness for C3: the host array `[1, 2, 3]`. -/
theorem jsValToLua_array_witness :
    ∃ tb rest,
      jsValToLua intPrims (.array [.number 1, .number 2, .number 3]) freshState =
        (.table 1, { freshState with heap := freshState.heap ++ tb :: rest }) ∧
      tb.RawGetInt 1 = .number 1 ∧ tb.RawGetInt 2 = .number 2 ∧ tb.RawGetInt 3 = .number 3 := by
  obtain ⟨tb, rest, h1, -, -, -, h5, h6⟩ :=
    jsValToLua_array intPrims [.number 1, .number 2, .number 3] freshState (by decide)
  have hall : ∀ e ∈ [JsVal.number (1 : Int), .number 2, .number 3],
      e.Type_ = .TypeBoolean ∨ e.Type_ = .TypeNumber ∨ e.Type_ = .TypeString ∨
        e.Type_ = .TypeObject := by
    intro e he
    simp at he
    rcases he with rfl | rfl | rfl <;> simp [JsVal.Type_]
  refine ⟨tb, rest, h1, ?_, ?_, ?_⟩
  · rw [h6 hall 0 (by decide), h5]; simp [jsValToLua_number]
  · rw [h6 hall 1 (by decide), h5]; simp [jsValToLua_number]
  · rw [h6 hall 2 (by decide), h5]; simp [jsValToLua_number]

/-- Counterexample to C3 as stated: for the host array `[1, null, 3]` the
conversion of `A[2]` is the number 3, but the table holds it at index 2; at
index 3, where the claim puts it, the table has nothing. -/
theorem jsValToLua_array_skips_nil :
    ∃ tb rest,
      jsValToLua intPrims (.array [.number 1, .null, .number 3]) freshState =
        (.table 1, { freshState with heap := freshState.heap ++ tb :: rest }) ∧
      arrayItem intPrims (.array [.number 1, .null, .number 3]) freshState 2 = .number 3 ∧
      tb.RawGetInt (2 + 1) = .nil ∧
      tb.RawGetInt 2 = .number 3 ∧
      tb.RawGetInt (2 + 1) ≠
        arrayItem intPrims (.array [.number 1, .null, .number 3]) freshState 2 := by
  obtain ⟨rest, h⟩ :=
    jsValToLua_array_eq intPrims [.number 1, .null, .number 3] freshState (by decide)
  have h0 : arrayItem intPrims (.array [.number 1, .null, .number 3]) freshState 0 =
      .number 1 := by rw [arrayItem_array]; simp [jsValToLua_number]
  have h1 : arrayItem intPrims (.array [.number 1, .null, .number 3]) freshState 1 =
      .nil := by rw [arrayItem_array]; simp [jsValToLua_null]
  have h2 : arrayItem intPrims (.array [.number 1, .null, .number 3]) freshState 2 =
      .number 3 := by rw [arrayItem_array]; simp [jsValToLua_number]
  refine ⟨_, rest, h, h2, ?_, ?_, ?_⟩
  · simp [LTable.RawGetInt, List.range_succ, h0, h1, h2, LValue.isNil]
  · simp [LTable.RawGetInt, List.range_succ, h0, h1, h2, LValue.isNil]
  · simp [LTable.RawGetInt, List.range_succ, h0, h1, h2, LValue.isNil]

theorem mapDelete_of_not_mem (key : String) (sd : List (String × LValue F))
    (h : key ∉ sd.map Prod.fst) : LTable.mapDelete key sd = sd := by
  induction sd with
  | nil => rfl
  | cons kv rest ih =>
    obtain ⟨k, v⟩ := kv
    simp only [List.map_cons, List.mem_cons, not_or] at h
    have hk : ¬ k = key := fun e => h.1 e.symm
    simp [LTable.mapDelete, hk, ih h.2]

theorem mapSet_of_not_mem (key : String) (value : LValue F) (sd : List (String × LValue F))
    (h : key ∉ sd.map Prod.fst) : LTable.mapSet key value sd = sd ++ [(key, value)] := by
  induction sd with
  | nil => rfl
  | cons kv rest ih =>
    obtain ⟨k, v⟩ := kv
    simp only [List.map_cons, List.mem_cons, not_or] at h
    have hk : ¬ k = key := fun e => h.1 e.symm
    simp [LTable.mapSet, hk, ih h.2]

theorem RawSetString_of_not_mem (arr : List (LValue F)) (sd : List (String × LValue F))
    (d : List (LValue F × LValue F)) (key : String) (v : LValue F)
    (h : key ∉ sd.map Prod.fst) :
    (⟨arr, sd, d⟩ : LTable F).RawSetString key v =
      ⟨arr, sd ++ (if v.isNil then [] else [(key, v)]), d⟩ := by
  unfold LTable.RawSetString
  by_cases hv : v.isNil = true
  · simp [hv, mapDelete_of_not_mem key sd h]
  · simp [hv, mapSet_of_not_mem key v sd h]

theorem stored_eq (p : Prims F) (val : JsVal F) (L : LState F) (n : Nat)
    (hk : ∀ i j, i < n → j < n → propKey p val i = propKey p val j → i = j) :
    stored p val L n =
      ⟨[], ((List.range n).map (fun i => (propKey p val i, propItem p val L i))).filter
        (fun kv => !kv.2.isNil), []⟩ := by
  induction n with
  | zero => rfl
  | succ n ih =>
    have hstep : stored p val L (n + 1) =
        (stored p val L n).RawSetString (propKey p val n) (propItem p val L n) := by
      simp [stored, List.range_succ, List.foldl_append]
    rw [hstep, ih (fun i j hi hj => hk i j (by omega) (by omega)), RawSetString_of_not_mem]
    · rw [List.range_succ, List.map_append, List.filter_append]
      congr 1
      congr 1
      by_cases hv : (propItem p val L n).isNil = true <;> simp [hv]
    · intro hmem
      obtain ⟨kv, hkv, hkey⟩ := List.mem_map.mp hmem
      obtain ⟨i, hi, rfl⟩ := List.mem_map.mp (List.mem_filter.mp hkv).1
      have hin := List.mem_range.mp hi
      have := hk i n (by omega) (by omega) hkey
      omega

theorem propKey_object (p : Prims F) (props : List (String × JsVal F)) (i : Nat)
    (hi : i < props.length) :
    propKey p (.object props) i = (props.getD i ("", .undefined)).1 := by
  simp [propKey, Object_keys, JsVal.Index, List.getD_eq_getElem?_getD, hi, JsVal.String]

theorem getProp_getD (props : List (String × JsVal F)) (hnd : (props.map Prod.fst).Nodup)
    (i : Nat) (hi : i < props.length) :
    JsVal.getProp (props.getD i ("", .undefined)).1 props = (props.getD i ("", .undefined)).2 := by
  induction props generalizing i with
  | nil => simp at hi
  | cons kv rest ih =>
    obtain ⟨k, v⟩ := kv
    simp only [List.map_cons, List.nodup_cons] at hnd
    cases i with
    | zero => simp [JsVal.getProp]
    | succ j =>
      have hj : j < rest.length := by simpa using hi
      have hmem : (rest.getD j ("", .undefined)).1 ∈ rest.map Prod.fst := by
        rw [List.getD_eq_getElem _ _ hj]
        exact List.mem_map_of_mem _ (List.getElem_mem _)
      have hne : ¬ k = (rest.getD j ("", .undefined)).1 := fun e => hnd.1 (e ▸ hmem)
      simp only [List.getD_cons_succ, JsVal.getProp, hne, if_false]
      exact ih hnd.2 j hj

theorem propKey_inj (p : Prims F) (props : List (String × JsVal F))
    (hnd : (props.map Prod.fst).Nodup) (i j : Nat) (hi : i < props.length)
    (hj : j < props.length)
    (h : propKey p (.object props) i = propKey p (.object props) j) : i = j := by
  rw [propKey_object p props i hi, propKey_object p props j hj,
    List.getD_eq_getElem _ _ hi, List.getD_eq_getElem _ _ hj] at h
  have hi2 : i < (props.map Prod.fst).length := by simpa using hi
  have hj2 : j < (props.map Prod.fst).length := by simpa using hj
  have h1 : (props.map Prod.fst)[i] = (props.map Prod.fst)[j] := by simpa using h
  exact (List.Nodup.getElem_inj_iff hnd).mp h1

theorem mapGet_of_not_mem (key : String) (sd : List (String × LValue F))
    (h : key ∉ sd.map Prod.fst) : LTable.mapGet key sd = .nil := by
  induction sd with
  | nil => rfl
  | cons kv rest ih =>
    obtain ⟨k, v⟩ := kv
    simp only [List.map_cons, List.mem_cons, not_or] at h
    have hk : ¬ k = key := fun e => h.1 e.symm
    simp [LTable.mapGet, hk, ih h.2]

theorem mapGet_of_mem (key : String) (v : LValue F) (sd : List (String × LValue F))
    (hnd : (sd.map Prod.fst).Nodup) (h : (key, v) ∈ sd) : LTable.mapGet key sd = v := by
  induction sd with
  | nil => simp at h
  | cons kv rest ih =>
    obtain ⟨k, w⟩ := kv
    simp only [List.map_cons, List.nodup_cons] at hnd
    rcases List.mem_cons.mp h with h | h
    · cases h
      simp [LTable.mapGet]
    · have hk : ¬ k = key := by
        intro e
        exact hnd.1 (e ▸ List.mem_map_of_mem Prod.fst h)
      simp [LTable.mapGet, hk, ih hnd.2 h]

theorem isNil_eq_true (v : LValue F) (h : v.isNil = true) : v = .nil := by
  cases v <;> simp [LValue.isNil] at h ⊢

theorem strEntries_of_nonNil (sd : List (String × LValue F))
    (h : ∀ kv ∈ sd, kv.2.isNil = false) :
    LTable.strEntries sd = sd.map (fun kv => (LValue.string kv.1, kv.2)) := by
  induction sd with
  | nil => rfl
  | cons kv rest ih =>
    obtain ⟨k, v⟩ := kv
    have hv : v.isNil = false := h (k, v) (List.mem_cons_self _ _)
    simp [LTable.strEntries, hv, ih (fun x hx => h x (List.mem_cons_of_mem _ hx))]

theorem map_filter_string (l : List (String × LValue F)) :
    (l.filter (fun kv => !kv.2.isNil)).map (fun kv => ((LValue.string kv.1 : LValue F), kv.2)) =
      (l.map (fun kv => ((LValue.string kv.1 : LValue F), kv.2))).filter
        (fun kv => !kv.2.isNil) := by
  induction l with
  | nil => rfl
  | cons kv rest ih => by_cases h : kv.2.isNil = true <;> simp [List.filter_cons, h, ih]

theorem jsValToLua_object_props_eq (p : Prims F) (props : List (String × JsVal F))
    (L : LState F) (hlen : p.toInt (p.ofInt props.length) = props.length)
    (hnum : (JsVal.getProp "length" props).Type_ ≠ .TypeNumber)
    (hnd : (props.map Prod.fst).Nodup) :
    ∃ rest, jsValToLua p (.object props) L =
      (.table L.heap.length, { L with heap := L.heap ++
        ⟨[], ((List.range props.length).map
          (fun i => (propKey p (.object props) i, propItem p (.object props) L i))).filter
            (fun kv => !kv.2.isNil), []⟩ :: rest }) := by
  obtain ⟨rest, h⟩ := setLoop_inv p (.object props) L
    (fun key S => jsValToLua_extends p _ S) props.length
  refine ⟨rest, ?_⟩
  rw [jsValToLua_object_eq p (.object props) L rfl,
    ← stored_eq p (.object props) L props.length
      (fun i j hi hj => propKey_inj p props hnd i j hi hj), ← h]
  have hg : (JsVal.Get p (.object props) "length").Type_ ≠ .TypeNumber := hnum
  rw [if_neg hg]
  simp [Object_keys, JsVal.Get, JsVal.Int, hlen]

/-- C4 (as amended): for a host object `O` with pairwise distinct own keys and
no numeric `length`, `jsValToLua` returns a reference to a fresh table
(allocated behind the tables that exist, which stay as they are) whose entries
are, in the order of `Object.keys`, exactly the pairs of an own key of `O` and
the conversion of its value for which that conversion is not Nil, one entry a
key; and for every own key the table's value under the key, Nil when there is
no entry, is the conversion of `O[key]`. -/
theorem jsValToLua_object (p : Prims F) (props : List (String × JsVal F)) (L : LState F)
    (hlen : p.toInt (p.ofInt props.length) = props.length)
    (hnum : (JsVal.getProp "length" props).Type_ ≠ .TypeNumber)
    (hnd : (props.map Prod.fst).Nodup) :
    ∃ tb rest,
      jsValToLua p (.object props) L =
        (.table L.heap.length, { L with heap := L.heap ++ tb :: rest }) ∧
      tb.entries p = ((List.range props.length).map
        (fun i => (LValue.string (propKey p (.object props) i),
          propItem p (.object props) L i))).filter (fun kv => !kv.2.isNil) ∧
      ((tb.entries p).map Prod.fst).Nodup ∧
      (∀ i, i < props.length →
        propKey p (.object props) i = (props.getD i ("", .undefined)).1 ∧
        propItem p (.object props) L i =
          (jsValToLua p (props.getD i ("", .undefined)).2
            (setLoop p (.object props) (Object_keys (.object props)) L.heap.length i
              L.NewTable.2)).1 ∧
        tb.RawGetString (propKey p (.object props) i) = propItem p (.object props) L i) := by
  obtain ⟨rest, h⟩ := jsValToLua_object_props_eq p props L hlen hnum hnd
  have hkeys : ∀ (l : List Nat), (∀ i ∈ l, i < props.length) → l.Nodup →
      ((l.map (fun i => (propKey p (.object props) i,
        propItem p (.object props) L i))).map Prod.fst).Nodup := by
    intro l hl hn
    rw [List.map_map]
    refine (List.nodup_map_iff_inj_on hn).mpr ?_
    intro i hi j hj hij
    exact propKey_inj p props hnd i j (hl i hi) (hl j hj) hij
  have hsd : ((((List.range props.length).map (fun i => (propKey p (.object props) i,
      propItem p (.object props) L i))).filter (fun kv => !kv.2.isNil)).map Prod.fst).Nodup :=
    List.Nodup.sublist (List.Sublist.map _ (List.filter_sublist _))
      (hkeys _ (fun i hi => List.mem_range.mp hi) (List.nodup_range _))
  have hent1 : LTable.entries p (⟨[], ((List.range props.length).map
      (fun i => (propKey p (.object props) i, propItem p (.object props) L i))).filter
        (fun kv => !kv.2.isNil), []⟩ : LTable F) =
      (((List.range props.length).map
        (fun i => (propKey p (.object props) i, propItem p (.object props) L i))).filter
          (fun kv => !kv.2.isNil)).map (fun kv => (LValue.string kv.1, kv.2)) := by
    simp only [LTable.entries, LTable.arrayEntries, LTable.dictEntries, List.nil_append,
      List.append_nil]
    exact strEntries_of_nonNil _ (by
      intro kv hkv
      have := (List.mem_filter.mp hkv).2
      simpa using this)
  refine ⟨_, rest, h, ?_, ?_, ?_⟩
  · rw [hent1, map_filter_string, List.map_map]
    rfl
  · rw [hent1, List.map_map]
    have hinj : Function.Injective (fun s : String => (LValue.string s : LValue F)) := by
      intro a b hab
      cases hab
      rfl
    have h2 := List.Nodup.map hinj hsd
    rw [List.map_map] at h2
    exact h2
  · intro i hi
    refine ⟨propKey_object p props i hi, ?_, ?_⟩
    · simp only [propItem, JsVal.Get]
      rw [propKey_object p props i hi, getProp_getD props hnd i hi]
    · by_cases hv : (propItem p (.object props) L i).isNil = true
      · rw [isNil_eq_true _ hv]
        apply mapGet_of_not_mem
        intro hmem
        obtain ⟨kv, hkv, hkey⟩ := List.mem_map.mp hmem
        have hf := List.mem_filter.mp hkv
        obtain ⟨j, hj, rfl⟩ := List.mem_map.mp hf.1
        have hij := propKey_inj p props hnd j i (List.mem_range.mp hj) hi hkey
        subst hij
        simp [hv] at hf
      · apply mapGet_of_mem _ _ _ hsd
        apply List.mem_filter.mpr
        refine ⟨List.mem_map.mpr ⟨i, List.mem_range.mpr hi, rfl⟩, ?_⟩
        simpa using hv

/-- Witness for C4: the host object `{a: 1, b: "x"}`. -/
theorem jsValToLua_object_witness :
    ∃ tb rest,
      jsValToLua intPrims (.object [("a", .number 1), ("b", .string "x")]) freshState =
        (.table 1, { freshState with heap := freshState.heap ++ tb :: rest }) ∧
      tb.RawGetString "a" = .number 1 ∧ tb.RawGetString "b" = .string "x" := by
  obtain ⟨tb, rest, h1, -, -, h4⟩ :=
    jsValToLua_object intPrims [("a", .number 1), ("b", .string "x")] freshState
      (by decide) (by decide) (by decide)
  refine ⟨tb, rest, h1, ?_, ?_⟩
  · obtain ⟨hk, hi, hg⟩ := h4 0 (by decide)
    rw [hk] at hg
    rw [hi] at hg
    simpa [jsValToLua_number] using hg
  · obtain ⟨hk, hi, hg⟩ := h4 1 (by decide)
    rw [hk] at hg
    rw [hi] at hg
    simpa [jsValToLua_string] using hg

/-- Counterexample to C4 as stated: the host object `{a: null}` has the own key
`a`, but the table made from it has no entry at all. -/
theorem jsValToLua_object_drops_nil :
    ∃ tb rest,
      jsValToLua intPrims (.object [("a", .null)]) freshState =
        (.table 1, { freshState with heap := freshState.heap ++ tb :: rest }) ∧
      Object_keys (JsVal.object [("a", (.null : JsVal Int))]) = .array [.string "a"] ∧
      tb.entries intPrims = [] := by
  obtain ⟨rest, h⟩ := jsValToLua_object_props_eq intPrims [("a", .null)] freshState
    (by decide) (by decide) (by decide)
  have h0 : propItem intPrims (.object [("a", .null)]) freshState 0 = .nil := by
    simp [propItem, propKey, Object_keys, JsVal.Index, JsVal.String, JsVal.Get, JsVal.getProp,
      jsValToLua_null]
  refine ⟨_, rest, h, rfl, ?_⟩
  simp [List.range_succ, h0, LValue.isNil, LTable.entries, LTable.arrayEntries,
    LTable.strEntries, LTable.dictEntries]

end ToInterpreter

/-! ## Properties of the entry points -/

section EntryPoints

variable {F : Type}

theorem convertArgs_foldl (p : Prims F) (args : List (JsVal F)) (acc : List (LValue F))
    (L : LState F) :
    args.foldl
      (fun (acc : List (LValue F) × LState F) a =>
        ((acc.1 ++ [(jsValToLua p a acc.2).1]), (jsValToLua p a acc.2).2)) (acc, L) =
      (acc ++ (convertArgs p args L).1, (convertArgs p args L).2) := by
  induction args generalizing acc L with
  | nil => simp [convertArgs]
  | cons a rest ih =>
    simp only [List.foldl_cons, convertArgs, List.nil_append]
    rw [ih, ih [(jsValToLua p a L).1]]
    simp [convertArgs]

theorem convertArgs_cons (p : Prims F) (a : JsVal F) (args : List (JsVal F)) (L : LState F) :
    convertArgs p (a :: args) L =
      ((jsValToLua p a L).1 :: (convertArgs p args (jsValToLua p a L).2).1,
        (convertArgs p args (jsValToLua p a L).2).2) := by
  have h := convertArgs_foldl p args [(jsValToLua p a L).1] (jsValToLua p a L).2
  simp only [convertArgs, List.foldl_cons, List.nil_append] at h ⊢
  rw [h]
  rfl

theorem convertArgs_append (p : Prims F) (as bs : List (JsVal F)) (L : LState F) :
    convertArgs p (as ++ bs) L =
      ((convertArgs p as L).1 ++ (convertArgs p bs (convertArgs p as L).2).1,
        (convertArgs p bs (convertArgs p as L).2).2) := by
  induction as generalizing L with
  | nil => simp [convertArgs]
  | cons a rest ih => simp [convertArgs_cons, ih]

theorem convertArgs_extends (p : Prims F) (args : List (JsVal F)) (L : LState F) :
    ∃ extra, (convertArgs p args L).2 = { L with heap := L.heap ++ extra } := by
  induction args generalizing L with
  | nil => exact ⟨[], by simp [convertArgs]⟩
  | cons a rest ih =>
    obtain ⟨e1, h1⟩ := jsValToLua_extends p a L
    obtain ⟨e2, h2⟩ := ih (jsValToLua p a L).2
    refine ⟨e1 ++ e2, ?_⟩
    rw [convertArgs_cons]
    simp only
    rw [h2, h1]
    simp

theorem Get_top (L : LState F) (st : List (LValue F)) (v : LValue F)
    (hs : L.stack = st ++ [v]) : L.Get (-1) = v := by
  have h : ((st.length : Int) + 1 + -1).toNat = st.length := by omega
  simp [LState.Get, hs, h, List.getD_eq_getElem?_getD]

theorem Get_top_mk (heap : List (LTable F)) (G : Nat) (st : List (LValue F)) (v : LValue F)
    (tr : List (Invocation F)) : (⟨heap, G, st ++ [v], tr⟩ : LState F).Get (-1) = v :=
  Get_top _ st v rfl

theorem adjust_one (rets : List (LValue F)) : LState.adjust 1 rets = [rets.headD .nil] := by
  cases rets with
  | nil => rfl
  | cons r rest => simp [LState.adjust]

theorem callFunction_eq (p : Prims F) (E : Engine F) (name : JsVal F) (rest : List (JsVal F))
    (L : LState F) (hfn : (L.GetGlobal (name.String p)).Type_ = .LTFunction) :
    callFunction p E (name :: rest) L =
      match (E.call (L.GetGlobal (name.String p)) (convertArgs p rest L).1 L.G
          (convertArgs p rest L).2.heap).1 with
      | .error m =>
        (Error_New m,
          { L with
            heap := (E.call (L.GetGlobal (name.String p)) (convertArgs p rest L).1 L.G
              (convertArgs p rest L).2.heap).2
            trace := L.trace ++
              [.call (L.GetGlobal (name.String p)) 1 true (convertArgs p rest L).1] })
      | .ok rets =>
        (luaToJsVal p (E.call (L.GetGlobal (name.String p)) (convertArgs p rest L).1 L.G
            (convertArgs p rest L).2.heap).2 (rets.headD .nil) 0,
          { L with
            heap := (E.call (L.GetGlobal (name.String p)) (convertArgs p rest L).1 L.G
              (convertArgs p rest L).2.heap).2
            trace := L.trace ++
              [.call (L.GetGlobal (name.String p)) 1 true (convertArgs p rest L).1] }) := by
  obtain ⟨extra, hx⟩ := convertArgs_extends p rest L
  have hG : (convertArgs p rest L).2.G = L.G := by rw [hx]
  have hS : (convertArgs p rest L).2.stack = L.stack := by rw [hx]
  have hT : (convertArgs p rest L).2.trace = L.trace := by rw [hx]
  simp only [callFunction, List.length_cons, List.getD_cons_zero, List.drop_succ_cons,
    List.drop_zero, LState.CallByParam, hG, hS, hT]
  have h1 : ¬ (rest.length + 1 < 1) := by omega
  simp only [h1, if_false, hfn, ne_eq, not_true_eq_false]
  cases hc : (E.call (L.GetGlobal (name.String p)) (convertArgs p rest L).1 L.G
      (convertArgs p rest L).2.heap).1 with
  | error m => simp
  | ok rets =>
    simp [adjust_one, LState.GetTop, LState.Pop, Get_top_mk]

theorem getFieldString_succ (E : Engine F) (mt : LValue F → LValue F) (fuel : Nat)
    (L : LState F) (curobj : LValue F) (key : String) :
    getFieldString E mt (fuel + 1) L curobj key =
      if curobj.Type_ = .LTTable ∧
          (match curobj with
            | .table tb => (deref L.heap tb).RawGetString key
            | _ => .nil).isNil = false then
        .ok ((match curobj with
            | .table tb => (deref L.heap tb).RawGetString key
            | _ => .nil), L)
      else if (metaOp mt L.heap curobj "__index").isNil then
        if curobj.Type_ = .LTTable then .ok (.nil, L)
        else .error "attempt to index a non-table object"
      else if (metaOp mt L.heap curobj "__index").Type_ = .LTFunction then
        match (E.call (metaOp mt L.heap curobj "__index") [curobj, .string key] L.G L.heap).1 with
        | .error msg => .error msg
        | .ok rets =>
          .ok (rets.headD .nil,
            { L with
              heap := (E.call (metaOp mt L.heap curobj "__index") [curobj, .string key] L.G
                L.heap).2
              trace := L.trace ++
                [.call (metaOp mt L.heap curobj "__index") 1 false [curobj, .string key]] })
      else getFieldString E mt fuel L (metaOp mt L.heap curobj "__index") key := by
  rfl

theorem GetGlobal_step (E : Engine F) (mt : LValue F → LValue F) (L : LState F)
    (name : String) :
    Full.GetGlobal E mt L name = getFieldString E mt (99 + 1) L (.table L.G) name := by
  rfl

theorem GetGlobal_of_no_index (E : Engine F) (mt : LValue F → LValue F) (L : LState F)
    (name : String) (h : metaOp mt L.heap (.table L.G) "__index" = .nil) :
    Full.GetGlobal E mt L name = .ok (L.GetGlobal name, L) := by
  rw [GetGlobal_step, getFieldString_succ]
  simp only [h, LState.GetGlobal]
  by_cases hn : ((deref L.heap L.G).RawGetString name).isNil = false
  · simp [hn, LValue.Type_]
  · have hn2 : ((deref L.heap L.G).RawGetString name).isNil = true := by simpa using hn
    simp [hn2, LValue.Type_, LValue.isNil, isNil_eq_true _ hn2]

theorem getFieldString_state (E : Engine F) (mt : LValue F → LValue F) (fuel : Nat) :
    ∀ (L : LState F) (cur : LValue F) (key : String) (v : LValue F) (L1 : LState F),
      getFieldString E mt fuel L cur key = .ok (v, L1) →
      L1 = L ∨ ∃ f o heap2,
        L1 = { L with heap := heap2, trace := L.trace ++ [.call f 1 false [o, .string key]] } := by
  induction fuel with
  | zero => intro L cur key v L1 h; simp [getFieldString] at h
  | succ n ih =>
    intro L cur key v L1 h
    rw [getFieldString_succ] at h
    split at h
    · left; cases h; rfl
    · split at h
      · split at h
        · left; cases h; rfl
        · cases h
      · split at h
        · split at h
          · cases h
          · right; cases h; exact ⟨_, _, _, rfl⟩
        · exact ih L _ key v L1 h

theorem GetGlobal_state (E : Engine F) (mt : LValue F → LValue F) (L : LState F)
    (name : String) (v : LValue F) (L1 : LState F)
    (h : Full.GetGlobal E mt L name = .ok (v, L1)) :
    L1 = L ∨ ∃ f o heap2,
      L1 = { L with heap := heap2, trace := L.trace ++ [.call f 1 false [o, .string name]] } :=
  getFieldString_state E mt _ L _ name v L1 h

theorem toInterpreterSeq_eq (p : Prims F) (args : List (JsVal F)) (L : LState F) :
    toInterpreterSeq p args L = convertArgs p args L := by
  induction args generalizing L with
  | nil => rfl
  | cons a rest ih => rw [convertArgs_cons, toInterpreterSeq, ih]

theorem Full_convertArgs_typed (p : Prims F) (args : List (JsVal F)) (acc : List (LValue F))
    (L : LState F) :
    Full.convertArgs p (args.map .typed) acc L =
      .ok (acc ++ (toInterpreterSeq p args L).1, (toInterpreterSeq p args L).2) := by
  induction args generalizing acc L with
  | nil => simp [Full.convertArgs, toInterpreterSeq]
  | cons a rest ih =>
    simp only [List.map_cons, Full.convertArgs, Full.jsValToLua, toInterpreterSeq]
    rw [ih]
    simp

theorem Full_convertArgs_bigint (p : Prims F) (args : List (HostVal F)) (acc : List (LValue F))
    (L : LState F) (h : ∃ n, HostVal.bigint n ∈ args) :
    Full.convertArgs p args acc L = .error "bad type flag" := by
  induction args generalizing acc L with
  | nil => obtain ⟨n, hn⟩ := h; simp at hn
  | cons a rest ih =>
    cases a with
    | bigint k => simp [Full.convertArgs, Full.jsValToLua]
    | typed v =>
      simp only [Full.convertArgs, Full.jsValToLua]
      apply ih
      obtain ⟨n, hn⟩ := h
      simp at hn
      exact ⟨n, hn⟩

theorem Full_callFunction_empty (p : Prims F) (E : Engine F) (mt : LValue F → LValue F)
    (L : LState F) :
    Full.callFunction p E mt [] L = .ok (Error_New "Error: missing function name", L) := by
  simp [Full.callFunction]

theorem Full_callFunction_bigint_name (p : Prims F) (E : Engine F) (mt : LValue F → LValue F)
    (n : Int) (rest : List (HostVal F)) (L : LState F) :
    Full.callFunction p E mt (.bigint n :: rest) L = .error "bad type flag" := by
  simp [Full.callFunction, HostVal.String]

theorem Full_callFunction_lookup_error (p : Prims F) (E : Engine F) (mt : LValue F → LValue F)
    (name : JsVal F) (rest : List (HostVal F)) (L : LState F) (msg : String)
    (hg : Full.GetGlobal E mt L (name.String p) = .error msg) :
    Full.callFunction p E mt (.typed name :: rest) L = .error msg := by
  simp [Full.callFunction, HostVal.String, hg]

theorem Full_callFunction_not_function (p : Prims F) (E : Engine F) (mt : LValue F → LValue F)
    (name : JsVal F) (rest : List (HostVal F)) (L : LState F) (v : LValue F) (L1 : LState F)
    (hg : Full.GetGlobal E mt L (name.String p) = .ok (v, L1))
    (hfn : v.Type_ ≠ .LTFunction) :
    Full.callFunction p E mt (.typed name :: rest) L =
      .ok (Error_New ("Error: '" ++ name.String p ++ "' is not a function"), L1) := by
  simp [Full.callFunction, HostVal.String, hg, hfn]

theorem Full_callFunction_bigint_arg (p : Prims F) (E : Engine F) (mt : LValue F → LValue F)
    (name : JsVal F) (rest : List (HostVal F)) (L : LState F) (fn : LValue F) (L1 : LState F)
    (hg : Full.GetGlobal E mt L (name.String p) = .ok (fn, L1))
    (hfn : fn.Type_ = .LTFunction) (hb : ∃ n, HostVal.bigint n ∈ rest) :
    Full.callFunction p E mt (.typed name :: rest) L = .error "bad type flag" := by
  simp [Full.callFunction, HostVal.String, hg, hfn, Full_convertArgs_bigint p rest [] L1 hb]

theorem toInterpreterSeq_extends (p : Prims F) (args : List (JsVal F)) (L : LState F) :
    ∃ extra, (toInterpreterSeq p args L).2 = { L with heap := L.heap ++ extra } := by
  rw [toInterpreterSeq_eq]
  exact convertArgs_extends p args L

theorem Full_callFunction_function (p : Prims F) (E : Engine F) (mt : LValue F → LValue F)
    (name : JsVal F) (rest : List (JsVal F)) (L : LState F) (fn : LValue F) (L1 : LState F)
    (hg : Full.GetGlobal E mt L (name.String p) = .ok (fn, L1))
    (hfn : fn.Type_ = .LTFunction) :
    Full.callFunction p E mt (.typed name :: rest.map .typed) L =
      .ok (match (E.call fn (toInterpreterSeq p rest L1).1 L1.G
          (toInterpreterSeq p rest L1).2.heap).1 with
        | .error m =>
          (Error_New m,
            { L1 with
              heap := (E.call fn (toInterpreterSeq p rest L1).1 L1.G
                (toInterpreterSeq p rest L1).2.heap).2
              trace := L1.trace ++ [.call fn 1 true (toInterpreterSeq p rest L1).1] })
        | .ok rets =>
          (luaToJsVal p (E.call fn (toInterpreterSeq p rest L1).1 L1.G
              (toInterpreterSeq p rest L1).2.heap).2 (rets.headD .nil) 0,
            { L1 with
              heap := (E.call fn (toInterpreterSeq p rest L1).1 L1.G
                (toInterpreterSeq p rest L1).2.heap).2
              trace := L1.trace ++ [.call fn 1 true (toInterpreterSeq p rest L1).1] })) := by
  obtain ⟨extra, hx⟩ := toInterpreterSeq_extends p rest L1
  have hG : (toInterpreterSeq p rest L1).2.G = L1.G := by rw [hx]
  have hS : (toInterpreterSeq p rest L1).2.stack = L1.stack := by rw [hx]
  have hT : (toInterpreterSeq p rest L1).2.trace = L1.trace := by rw [hx]
  simp only [Full.callFunction, List.length_cons, List.getD_cons_zero, List.drop_succ_cons,
    List.drop_zero, HostVal.String, hg, Full_convertArgs_typed, List.nil_append,
    LState.CallByParam, hG, hS, hT]
  have h1 : ¬ ((rest.map (HostVal.typed (F := F))).length + 1 < 1) := by omega
  simp only [h1, if_false, hfn, ne_eq, not_true_eq_false]
  cases hc : (E.call fn (toInterpreterSeq p rest L1).1 L1.G
      (toInterpreterSeq p rest L1).2.heap).1 with
  | error m => simp
  | ok rets =>
    simp [adjust_one, LState.GetTop, LState.Pop, Get_top_mk]

theorem Full_getGlobal_raw (p : Prims F) (E : Engine F) (mt : LValue F → LValue F)
    (args : List (JsVal F)) (L : LState F)
    (h : metaOp mt L.heap (.table L.G) "__index" = .nil) :
    Full.getGlobal p E mt (args.map .typed) L = .ok (getGlobal p args L) := by
  cases args with
  | nil => simp [Full.getGlobal, getGlobal]
  | cons a rest =>
    simp [Full.getGlobal, getGlobal, HostVal.String, GetGlobal_of_no_index E mt L _ h]

theorem Full_callFunction_raw (p : Prims F) (E : Engine F) (mt : LValue F → LValue F)
    (args : List (JsVal F)) (L : LState F)
    (h : metaOp mt L.heap (.table L.G) "__index" = .nil) :
    Full.callFunction p E mt (args.map .typed) L = .ok (callFunction p E args L) := by
  cases args with
  | nil => simp [Full.callFunction, callFunction]
  | cons a rest =>
    have hg := GetGlobal_of_no_index E mt L (a.String p) h
    by_cases hfn : (L.GetGlobal (a.String p)).Type_ = .LTFunction
    · rw [List.map_cons, Full_callFunction_function p E mt a rest L _ L hg hfn,
        callFunction_eq p E a rest L hfn, toInterpreterSeq_eq]
    · rw [List.map_cons, Full_callFunction_not_function p E mt a _ L _ L hg hfn]
      simp [callFunction, hfn]

theorem hostVals_cases (args : List (HostVal F)) :
    (∃ n, HostVal.bigint n ∈ args) ∨ ∃ vs : List (JsVal F), args = vs.map .typed := by
  induction args with
  | nil => exact Or.inr ⟨[], rfl⟩
  | cons a rest ih =>
    cases a with
    | bigint k => exact Or.inl ⟨k, List.mem_cons_self _ _⟩
    | typed v =>
      rcases ih with ⟨n, hn⟩ | ⟨vs, hvs⟩
      · exact Or.inl ⟨n, List.mem_cons_of_mem _ hn⟩
      · exact Or.inr ⟨v :: vs, by simp [hvs]⟩

theorem GetGlobal_trace_le (E : Engine F) (mt : LValue F → LValue F) (L : LState F)
    (name : String) (v : LValue F) (L1 : LState F)
    (h : Full.GetGlobal E mt L name = .ok (v, L1)) : L.trace.length ≤ L1.trace.length := by
  rcases GetGlobal_state E mt L name v L1 h with h | ⟨f, o, heap2, h⟩
  · rw [h]
  · rw [h]; simp

theorem Full_callFunction_changes (p : Prims F) (E : Engine F) (mt : LValue F → LValue F)
    (name : JsVal F) (rest : List (HostVal F)) (L : LState F) (fn : LValue F) (L1 : LState F)
    (hg : Full.GetGlobal E mt L (name.String p) = .ok (fn, L1))
    (hfn : fn.Type_ = .LTFunction) (r : JsVal F) :
    Full.callFunction p E mt (.typed name :: rest) L ≠ .ok (r, L) := by
  intro h
  rcases hostVals_cases rest with hb | ⟨vs, hvs⟩
  · rw [Full_callFunction_bigint_arg p E mt name rest L fn L1 hg hfn hb] at h
    cases h
  · subst hvs
    rw [Full_callFunction_function p E mt name vs L fn L1 hg hfn] at h
    have hle := GetGlobal_trace_le E mt L _ fn L1 hg
    have ht : (L1.trace ++ [Invocation.call fn 1 true (toInterpreterSeq p vs L1).1]).length =
        L.trace.length := by
      split at h <;>
        · injection h with h
          have h2 := congrArg (fun x => x.2.trace.length) h
          exact h2
    simp at ht
    omega

/-- C7 (as amended): `callFunction` returns a host Error and leaves the
interpreter state as it was (no argument converted, no interpreter code run)
exactly when the argument list is empty or the lookup of the global named by
the first argument yields, without running interpreter code, a value that is
not a function; when the table of globals has no `__index`, that is: exactly
when the argument list is empty or the table of globals binds the name to a
value that is not a function or does not bind it.  The Error's message is
`Error: missing function name` in the first case.  Whenever the lookup yields
a value that is not a function the result is the Error with the message
`Error: '<name>' is not a function` and no argument is converted, but the
lookup itself may have run the `__index` function of the metatable of the
table of globals, once. -/
theorem callFunction_rejects_unchanged (p : Prims F) (E : Engine F) (mt : LValue F → LValue F)
    (args : List (HostVal F)) (L : LState F) :
    ((∃ m, Full.callFunction p E mt args L = .ok (Error_New m, L)) ↔
      (args = [] ∨ ∃ name rest v, args = .typed name :: rest ∧
        Full.GetGlobal E mt L (name.String p) = .ok (v, L) ∧ v.Type_ ≠ .LTFunction)) ∧
    (metaOp mt L.heap (.table L.G) "__index" = .nil →
      ((∃ m, Full.callFunction p E mt args L = .ok (Error_New m, L)) ↔
        (args = [] ∨ ∃ name rest, args = .typed name :: rest ∧
          (L.GetGlobal (name.String p)).Type_ ≠ .LTFunction))) ∧
    (args = [] →
      Full.callFunction p E mt args L = .ok (Error_New "Error: missing function name", L) ∧
      Contains "Error: missing function name" "missing function name") ∧
    (∀ name rest v L1, args = .typed name :: rest →
      Full.GetGlobal E mt L (name.String p) = .ok (v, L1) → v.Type_ ≠ .LTFunction →
      Full.callFunction p E mt args L =
        .ok (Error_New ("Error: '" ++ name.String p ++ "' is not a function"), L1) ∧
      Contains ("Error: '" ++ name.String p ++ "' is not a function")
        ("'" ++ name.String p ++ "' is not a function") ∧
      (L1 = L ∨ ∃ f o heap2,
        L1 = { L with
          heap := heap2
          trace := L.trace ++ [.call f 1 false [o, .string (name.String p)]] })) := by
  have hiff : (∃ m, Full.callFunction p E mt args L = .ok (Error_New m, L)) ↔
      (args = [] ∨ ∃ name rest v, args = .typed name :: rest ∧
        Full.GetGlobal E mt L (name.String p) = .ok (v, L) ∧ v.Type_ ≠ .LTFunction) := by
    constructor
    · rintro ⟨m, hm⟩
      cases args with
      | nil => exact Or.inl rfl
      | cons a rest =>
        right
        cases a with
        | bigint n => rw [Full_callFunction_bigint_name] at hm; cases hm
        | typed name =>
          cases hg : Full.GetGlobal E mt L (name.String p) with
          | error msg => rw [Full_callFunction_lookup_error p E mt name rest L msg hg] at hm; cases hm
          | ok g =>
            obtain ⟨v, L1⟩ := g
            by_cases hfn : v.Type_ = .LTFunction
            · exact absurd hm (Full_callFunction_changes p E mt name rest L v L1 hg hfn _)
            · rw [Full_callFunction_not_function p E mt name rest L v L1 hg hfn] at hm
              injection hm with hm
              have h2 : L1 = L := congrArg Prod.snd hm
              subst h2
              exact ⟨name, rest, v, rfl, hg, hfn⟩
    · rintro (h | ⟨name, rest, v, h, hg, hfn⟩)
      · subst h
        exact ⟨_, Full_callFunction_empty p E mt L⟩
      · subst h
        exact ⟨_, Full_callFunction_not_function p E mt name rest L v L hg hfn⟩
  refine ⟨hiff, ?_, ?_, ?_⟩
  · intro hno
    rw [hiff]
    constructor
    · rintro (h | ⟨name, rest, v, h, hg, hfn⟩)
      · exact Or.inl h
      · right
        rw [GetGlobal_of_no_index E mt L _ hno] at hg
        cases hg
        exact ⟨name, rest, h, hfn⟩
    · rintro (h | ⟨name, rest, h, hfn⟩)
      · exact Or.inl h
      · exact Or.inr ⟨name, rest, _, h, GetGlobal_of_no_index E mt L _ hno, hfn⟩
  · intro h
    subst h
    exact ⟨Full_callFunction_empty p E mt L, ⟨"Error: ".data, [], rfl⟩⟩
  · intro name rest v L1 h hg hfn
    subst h
    refine ⟨Full_callFunction_not_function p E mt name rest L v L1 hg hfn,
      ⟨"Error: ".data, [], ?_⟩, GetGlobal_state E mt L _ v L1 hg⟩
    simp [String.data_append]

/-- Witness for C7: no global `missing` is bound and the table of globals has
no metatable, so the name resolves to Nil without running interpreter code. -/
theorem callFunction_rejects_unchanged_witness :
    Full.callFunction intPrims demoEngine noMeta
        [.typed (.string "missing"), .typed (.number 1)] addState =
      .ok (Error_New "Error: 'missing' is not a function", addState) ∧
    ∃ m, Full.callFunction intPrims demoEngine noMeta
        [.typed (.string "missing"), .bigint 1] addState = .ok (Error_New m, addState) := by
  refine ⟨?_, ?_⟩
  · exact ((callFunction_rejects_unchanged intPrims demoEngine noMeta
      [.typed (.string "missing"), .typed (.number 1)] addState).2.2.2 (.string "missing")
        [.typed (.number 1)] .nil addState rfl
        (GetGlobal_of_no_index demoEngine noMeta addState "missing" rfl) (by decide)).1
  · exact ((callFunction_rejects_unchanged intPrims demoEngine noMeta
      [.typed (.string "missing"), .bigint 1] addState).2.1 rfl).mpr
        (Or.inr ⟨.string "missing", [.bigint 1], rfl, by decide⟩)

/-- Counterexample to C7 as stated: no global `missing` is bound, but the
metatable of the table of globals has a function as its `__index`, which the
lookup calls; it returns 42, which is not a function, so `callFunction` returns
the Error, after interpreter code has run. -/
theorem callFunction_rejects_after_index_call :
    (deref indexState.heap indexState.G).RawGetString "missing" = .nil ∧
    Full.GetGlobal indexEngine indexMeta indexState "missing" =
      .ok (.number 42,
        { indexState with
          trace := [.call (.function 9) 1 false [.table 0, .string "missing"]] }) ∧
    Full.callFunction intPrims indexEngine indexMeta [.typed (.string "missing")] indexState =
      .ok (Error_New "Error: 'missing' is not a function",
        { indexState with
          trace := [.call (.function 9) 1 false [.table 0, .string "missing"]] }) ∧
    ¬ ∃ m, Full.callFunction intPrims indexEngine indexMeta [.typed (.string "missing")]
        indexState = .ok (Error_New m, indexState) := by
  have hg : Full.GetGlobal indexEngine indexMeta indexState "missing" =
      .ok (.number 42, { indexState with
        trace := [.call (.function 9) 1 false [.table 0, .string "missing"]] }) := by
    rw [GetGlobal_step, getFieldString_succ]
    rfl
  have hc := Full_callFunction_not_function intPrims indexEngine indexMeta (.string "missing")
    [] indexState _ _ hg (by decide)
  refine ⟨by decide, hg, hc, ?_⟩
  rintro ⟨m, hm⟩
  rw [hc] at hm
  injection hm with hm
  have h2 := congrArg (fun x => x.2.trace.length) hm
  simp [indexState] at h2

theorem doString_eq (p : Prims F) (E : Engine F) (src : JsVal F) (rest : List (JsVal F))
    (L : LState F) :
    doString p E (src :: rest) L =
      match (L.DoString E (src.String p)).1 with
      | some err => (Error_New err, (L.DoString E (src.String p)).2)
      | none =>
        if (L.DoString E (src.String p)).2.GetTop > 0 then
          (luaToJsVal p ((L.DoString E (src.String p)).2.Pop 1).heap
            ((L.DoString E (src.String p)).2.Get (-1)) 0, (L.DoString E (src.String p)).2.Pop 1)
        else (.null, (L.DoString E (src.String p)).2) := by
  simp [doString]

theorem doString_stale (p : Prims F) (E : Engine F) (src : JsVal F) (rest : List (JsVal F))
    (L : LState F) (heap2 : List (LTable F)) (st : List (LValue F)) (v : LValue F)
    (he : E.exec (src.String p) L.G L.heap = (.ok [], heap2)) (hs : L.stack = st ++ [v]) :
    doString p E (src :: rest) L =
      (luaToJsVal p heap2 v 0,
        { heap := heap2, G := L.G, stack := st,
          trace := L.trace ++ [.chunk (src.String p)] }) := by
  rw [doString_eq]
  simp only [LState.DoString, he, hs, LState.adjust]
  simp [LState.GetTop, LState.Pop, Get_top_mk]

/-- C8 (the code at the failing input): with a source argument, `doString` runs
the chunk once and returns the host Error of the message when that fails; when
the chunk succeeds and returns values, it returns `luaToJsVal v 0` for the last
of them; when the chunk succeeds and returns nothing, it returns Null only if
the stack was empty before, and otherwise pops the value `v` that an earlier
run left on top of the stack and returns `luaToJsVal v 0`.  So `return 1+1`
gives the Number 2, and `x = 5` gives Null on an empty stack, but after
`return 1, 2`, which leaves the number 1 behind, `x = 5` gives the Number 1. -/
theorem doString_returns_stack_top (p : Prims F) (E : Engine F) (src : JsVal F)
    (rest : List (JsVal F)) (L : LState F) :
    (∀ m heap2, E.exec (src.String p) L.G L.heap = (.error m, heap2) →
      doString p E (src :: rest) L =
        (Error_New m, { L with heap := heap2, trace := L.trace ++ [.chunk (src.String p)] })) ∧
    (∀ rets v heap2, E.exec (src.String p) L.G L.heap = (.ok (rets ++ [v]), heap2) →
      doString p E (src :: rest) L =
        (luaToJsVal p heap2 v 0,
          { heap := heap2, G := L.G, stack := L.stack ++ rets,
            trace := L.trace ++ [.chunk (src.String p)] })) ∧
    (∀ heap2, E.exec (src.String p) L.G L.heap = (.ok [], heap2) → L.stack = [] →
      doString p E (src :: rest) L =
        (.null, { L with heap := heap2, trace := L.trace ++ [.chunk (src.String p)] })) ∧
    (∀ heap2 st v, E.exec (src.String p) L.G L.heap = (.ok [], heap2) → L.stack = st ++ [v] →
      doString p E (src :: rest) L =
        (luaToJsVal p heap2 v 0,
          { heap := heap2, G := L.G, stack := st,
            trace := L.trace ++ [.chunk (src.String p)] })) ∧
    (∀ heap2, src = .string "return 1+1" →
      E.exec "return 1+1" L.G L.heap = (.ok [.number (p.ofInt 2)], heap2) →
      (doString p E (src :: rest) L).1 = .number (p.ofInt 2)) ∧
    (∀ heap2, src = .string "x = 5" → L.stack = [] →
      E.exec "x = 5" L.G L.heap = (.ok [], heap2) →
      (doString p E (src :: rest) L).1 = .null) ∧
    (∀ heap2 st x, src = .string "x = 5" → L.stack = st ++ [.number x] →
      E.exec "x = 5" L.G L.heap = (.ok [], heap2) →
      (doString p E (src :: rest) L).1 = .number x ∧ (doString p E (src :: rest) L).1 ≠ .null) ∧
    doString intPrims scriptEngine [.string "x = 5"]
        (doString intPrims scriptEngine [.string "return 1, 2"] freshState).2 =
      (.number 1,
        ⟨[⟨[], [("x", .number 5)], []⟩], 0, [], [.chunk "return 1, 2", .chunk "x = 5"]⟩) := by
  have h := doString_eq p E src rest L
  have hval : ∀ rets v heap2, E.exec (src.String p) L.G L.heap = (.ok (rets ++ [v]), heap2) →
      doString p E (src :: rest) L =
        (luaToJsVal p heap2 v 0,
          { heap := heap2, G := L.G, stack := L.stack ++ rets,
            trace := L.trace ++ [.chunk (src.String p)] }) := by
    intro rets v heap2 he
    rw [h]
    simp only [LState.DoString, he, LState.adjust]
    have hpos : (0 : Int) < (L.stack.length : Int) + (rets.length : Int) + 1 := by omega
    simp [LState.GetTop, LState.Pop, ← List.append_assoc, Get_top_mk, hpos]
  refine ⟨?_, hval, ?_, doString_stale p E src rest L, ?_, ?_, ?_, ?_⟩
  · intro m heap2 he
    rw [h]
    simp [LState.DoString, he]
  · intro heap2 he hs
    rw [h]
    simp only [LState.DoString, he, hs, LState.adjust]
    simp [LState.GetTop]
  · intro heap2 hsrc he
    subst hsrc
    have := hval [] (.number (p.ofInt 2)) heap2 (by simpa [JsVal.String] using he)
    rw [this]
    exact luaToJsVal_number p heap2 _ 0 (by decide)
  · intro heap2 hsrc hs he
    subst hsrc
    rw [h]
    simp only [LState.DoString, JsVal.String, he, hs, LState.adjust]
    simp [LState.GetTop]
  · intro heap2 st x hsrc hs he
    subst hsrc
    rw [doString_stale p E _ rest L heap2 st (.number x) (by simpa [JsVal.String] using he) hs]
    simp [luaToJsVal_number p heap2 _ 0 (by decide)]
  · have hs : (doString intPrims scriptEngine [.string "return 1, 2"] freshState).2 =
        ⟨[LTable.empty], 0, [.number 1], [.chunk "return 1, 2"]⟩ := by decide
    rw [hs,
      doString_stale intPrims scriptEngine (.string "x = 5") []
        ⟨[LTable.empty], 0, [.number 1], [.chunk "return 1, 2"]⟩
        [⟨[], [("x", .number 5)], []⟩] [] (.number 1) rfl rfl,
      luaToJsVal_number intPrims _ _ 0 (by decide)]
    rfl

/-- C9 (the code at the failing input): with an empty argument list `getGlobal`
and `doString` leave the state as it was and return the host String
`Error: missing argument`, whose type tag is String and not Object; it is the
very value that `getGlobal` returns for a global bound to that string, whereas
`callFunction` returns the host Error made from its message for its missing
argument. -/
theorem missing_argument_is_string (p : Prims F) (E : Engine F) (L : LState F) :
    getGlobal p [] L = (.string "Error: missing argument", L) ∧
    doString p E [] L = (.string "Error: missing argument", L) ∧
    (getGlobal p [] L).1.Type_ = .TypeString ∧
    (doString p E [] L).1.Type_ = .TypeString ∧
    (∀ m : String, (getGlobal p [] L).1 ≠ Error_New m ∧ (doString p E [] L).1 ≠ Error_New m) ∧
    (∀ name : String, L.GetGlobal name = .string "Error: missing argument" →
      getGlobal p [.string name] L = getGlobal p [] L) ∧
    callFunction p E [] L = (Error_New "Error: missing function name", L) := by
  have hg : getGlobal p [] L = (.string "Error: missing argument", L) := by simp [getGlobal]
  have hd : doString p E [] L = (.string "Error: missing argument", L) := by simp [doString]
  refine ⟨hg, hd, by rw [hg]; rfl, by rw [hd]; rfl, ?_, ?_, by simp [callFunction]⟩
  · intro m
    rw [hg, hd]
    simp [Error_New]
  · intro name hn
    rw [hg]
    simp only [getGlobal, List.length_singleton, List.getD_cons_zero, JsVal.String, hn]
    simp [luaToJsVal_string p L.heap _ 0 (by decide)]

theorem Full_getGlobal_typed (p : Prims F) (E : Engine F) (mt : LValue F → LValue F)
    (name : JsVal F) (rest : List (HostVal F)) (L : LState F) (v : LValue F) (L1 : LState F)
    (hg : Full.GetGlobal E mt L (name.String p) = .ok (v, L1)) :
    Full.getGlobal p E mt (.typed name :: rest) L = .ok (luaToJsVal p L1.heap v 0, L1) := by
  simp [Full.getGlobal, HostVal.String, hg]

/-- C10 (as amended): at every depth `d ≤ 5` Nil converts to Null, so
`getGlobal` returns Null for every name that the table of globals does not
bind when that table has no `__index` in a metatable; in general `getGlobal`
returns `luaToJsVal v 0` for the value `v` that the lookup yields, which for a
name that is not bound is what the `__index` of the metatable gives.  Every
value that is not a Boolean, Number, String, Table or Function converts to the
host String of its textual form, or to Null when that form is `nil`. -/
theorem unbound_global_is_null (p : Prims F) (heap : List (LTable F)) :
    (∀ d : Int, d ≤ 5 → luaToJsVal p heap .nil d = .null) ∧
    (∀ (E : Engine F) (mt : LValue F → LValue F) (name : JsVal F) (rest : List (HostVal F))
      (L : LState F),
      name.String p ∉ (deref L.heap L.G).strdict.map Prod.fst →
      metaOp mt L.heap (.table L.G) "__index" = .nil →
      Full.GetGlobal E mt L (name.String p) = .ok (.nil, L) ∧
      Full.getGlobal p E mt (.typed name :: rest) L = .ok (.null, L)) ∧
    (∀ (E : Engine F) (mt : LValue F → LValue F) (name : JsVal F) (rest : List (HostVal F))
      (L : LState F) (v : LValue F) (L1 : LState F),
      Full.GetGlobal E mt L (name.String p) = .ok (v, L1) →
      Full.getGlobal p E mt (.typed name :: rest) L = .ok (luaToJsVal p L1.heap v 0, L1)) ∧
    (∀ (v : LValue F) (d : Int), d ≤ 5 →
      v.Type_ ≠ .LTBool → v.Type_ ≠ .LTNumber → v.Type_ ≠ .LTString → v.Type_ ≠ .LTTable →
      v.Type_ ≠ .LTFunction →
      luaToJsVal p heap v d = if v.String p = "nil" then .null else .string (v.String p)) := by
  refine ⟨fun d hd => luaToJsVal_nil p heap d hd, ?_, ?_, ?_⟩
  · intro E mt name rest L hn hno
    have hraw : L.GetGlobal (name.String p) = .nil := mapGet_of_not_mem _ _ hn
    have hg : Full.GetGlobal E mt L (name.String p) = .ok (.nil, L) := by
      rw [GetGlobal_of_no_index E mt L _ hno, hraw]
    refine ⟨hg, ?_⟩
    rw [Full_getGlobal_typed p E mt name rest L _ _ hg, luaToJsVal_nil p L.heap 0 (by decide)]
  · intro E mt name rest L v L1 hg
    exact Full_getGlobal_typed p E mt name rest L v L1 hg
  · intro v d hd h1 h2 h3 h4 h5
    apply luaToJsVal_other p heap v d hd
    cases v <;> simp [LValue.Type_] at h1 h2 h3 h4 h5 ⊢

/-- Witness for C10: the global `undefinedName` is not bound, and no value has
a metatable. -/
theorem unbound_global_is_null_witness :
    Full.getGlobal intPrims demoEngine noMeta [.typed (.string "undefinedName")] addState =
      .ok (.null, addState) :=
  ((unbound_global_is_null intPrims addState.heap).2.1 demoEngine noMeta
    (.string "undefinedName") [] addState (by decide) rfl).2

/-- Counterexample to C10 as stated: the table of globals does not bind
`undefinedName`, but its metatable has a function as `__index`, which the
lookup calls; it returns 42, and `getGlobal` returns the Number 42, not Null. -/
theorem unbound_global_through_index :
    "undefinedName" ∉ (deref indexState.heap indexState.G).strdict.map Prod.fst ∧
    Full.getGlobal intPrims indexEngine indexMeta [.typed (.string "undefinedName")]
        indexState =
      .ok (.number 42,
        { indexState with
          trace := [.call (.function 9) 1 false [.table 0, .string "undefinedName"]] }) := by
  have hg : Full.GetGlobal indexEngine indexMeta indexState "undefinedName" =
      .ok (.number 42, { indexState with
        trace := [.call (.function 9) 1 false [.table 0, .string "undefinedName"]] }) := by
    rw [GetGlobal_step, getFieldString_succ]
    rfl
  refine ⟨by decide, ?_⟩
  rw [Full_getGlobal_typed intPrims indexEngine indexMeta (.string "undefinedName") []
    indexState _ _ hg, luaToJsVal_number intPrims _ _ 0 (by decide)]

end EntryPoints

/-! ## Functions, scalars and round trips -/

section Scalars

variable {F : Type}

/-- C11: at every depth `d ≤ 5` an interpreter function converts to the host
function stub, whatever the heap; called with any receiver and any arguments,
the stub returns Undefined and leaves the interpreter state as it was (heap and
globals, result stack, and the record of runs of interpreter code, so no
interpreter call is made); at depth `d > 5` a function converts to Undefined
like every other value. -/
theorem luaToJsVal_function_stub (p : Prims F) (heap : List (LTable F)) (r : Nat) (d : Int)
    (native : Nat → JsVal F → List (JsVal F) → LState F → JsVal F × LState F) :
    (d ≤ 5 → luaToJsVal p heap (.function r) d = .function .luaStub ∧
      (luaToJsVal p heap (.function r) d).Type_ = .TypeFunction ∧
      ∀ (this : JsVal F) (args : List (JsVal F)) (L : LState F),
        Invoke native (luaToJsVal p heap (.function r) d) this args L = (.undefined, L) ∧
        (Invoke native (luaToJsVal p heap (.function r) d) this args L).2.trace = L.trace ∧
        (Invoke native (luaToJsVal p heap (.function r) d) this args L).2.stack = L.stack ∧
        (Invoke native (luaToJsVal p heap (.function r) d) this args L).2.heap = L.heap) ∧
    (d > 5 → luaToJsVal p heap (.function r) d = .undefined) := by
  refine ⟨?_, fun hd => luaToJsVal_deep p heap _ d hd⟩
  intro hd
  rw [luaToJsVal_function p heap r d hd]
  refine ⟨rfl, rfl, ?_⟩
  intro this args L
  exact ⟨rfl, rfl, rfl, rfl⟩

/-- Witness for C11: the stub made for the global `add`, called on the state
that binds it. -/
theorem luaToJsVal_function_stub_witness :
    Invoke (fun _ _ _ L => (.null, L)) (luaToJsVal intPrims addState.heap (.function 7) 0)
      .undefined [.number 2, .number 3] addState = (.undefined, addState) :=
  ((luaToJsVal_function_stub intPrims addState.heap 7 0 (fun _ _ _ L => (.null, L))).1
    (by decide)).2.2 .undefined [.number 2, .number 3] addState |>.1

theorem scalar_round_trip (p : Prims F) (heap : List (LTable F)) (v : LValue F) (d : Int)
    (L : LState F) (hd : d ≤ 5)
    (hv : v.Type_ = .LTNil ∨ v.Type_ = .LTBool ∨ v.Type_ = .LTNumber ∨ v.Type_ = .LTString) :
    jsValToLua p (luaToJsVal p heap v d) L = (v, L) := by
  cases v <;> simp [LValue.Type_] at hv
  · rw [luaToJsVal_nil p heap d hd, jsValToLua_null]
  · rw [luaToJsVal_bool p heap _ d hd, jsValToLua_boolean]
  · rw [luaToJsVal_number p heap _ d hd, jsValToLua_number]
  · rw [luaToJsVal_string p heap _ d hd, jsValToLua_string]

/-- C15: on scalars the two converters undo each other: an interpreter Nil,
Boolean, Number or String converted to the host at depth 0 and back is the
value itself, and a host Null, Boolean, Number or String converted to the
interpreter and back at depth 0 is the value itself, while Undefined comes back
as Null; the String `nil` stays the String `nil`, and the empty String and the
Number 0 stay what they are. -/
theorem converters_inverse_on_scalars (p : Prims F) (heap : List (LTable F)) (L : LState F) :
    (∀ v : LValue F,
      v.Type_ = .LTNil ∨ v.Type_ = .LTBool ∨ v.Type_ = .LTNumber ∨ v.Type_ = .LTString →
      jsValToLua p (luaToJsVal p heap v 0) L = (v, L)) ∧
    (∀ h : JsVal F,
      h.Type_ = .TypeNull ∨ h.Type_ = .TypeBoolean ∨ h.Type_ = .TypeNumber ∨
        h.Type_ = .TypeString →
      luaToJsVal p heap (jsValToLua p h L).1 0 = h) ∧
    luaToJsVal p heap (jsValToLua p .undefined L).1 0 = .null ∧
    luaToJsVal p heap (.string "nil") 0 = .string "nil" ∧
    luaToJsVal p heap (.string "") 0 = .string "" ∧
    luaToJsVal p heap (.number (p.ofInt 0)) 0 = .number (p.ofInt 0) ∧
    jsValToLua p (.string "nil") L = (.string "nil", L) ∧
    jsValToLua p (.string "") L = (.string "", L) ∧
    jsValToLua p (.number (p.ofInt 0)) L = (.number (p.ofInt 0), L) := by
  refine ⟨fun v hv => scalar_round_trip p heap v 0 L (by decide) hv, ?_, ?_,
    luaToJsVal_string p heap _ 0 (by decide), luaToJsVal_string p heap _ 0 (by decide),
    luaToJsVal_number p heap _ 0 (by decide), jsValToLua_string p _ L,
    jsValToLua_string p _ L, jsValToLua_number p _ L⟩
  · intro h hh
    cases h <;> simp [JsVal.Type_] at hh
    · rw [jsValToLua_null]; exact luaToJsVal_nil p heap 0 (by decide)
    · rw [jsValToLua_boolean]; exact luaToJsVal_bool p heap _ 0 (by decide)
    · rw [jsValToLua_number]; exact luaToJsVal_number p heap _ 0 (by decide)
    · rw [jsValToLua_string]; exact luaToJsVal_string p heap _ 0 (by decide)
  · rw [jsValToLua_undefined]; exact luaToJsVal_nil p heap 0 (by decide)

/-- Witness for C15: the interpreter String `nil` goes to the host and back. -/
theorem converters_inverse_on_scalars_witness :
    jsValToLua intPrims (luaToJsVal intPrims freshState.heap (.string "nil") 0) freshState =
      (.string "nil", freshState) :=
  (converters_inverse_on_scalars intPrims freshState.heap freshState).1 (.string "nil")
    (by decide)

end Scalars

/-! ## Enumeration of the globals and the result stack -/

section Globals

variable {F : Type}

theorem getAllGlobals_eq (p : Prims F) (args : List (JsVal F)) (L : LState F) :
    getAllGlobals p args L =
      (.object (setAll (LValue.String p) (fun v => luaToJsVal p L.heap v 0)
        ((deref L.heap L.G).entries p) []), L) := by
  simp only [getAllGlobals, LState.ForEach]
  rw [show (Object_New : JsVal F) = .object [] from rfl, ForEach_Set]

theorem getProp_setAll_of_unique (key : LValue F → String) (conv : LValue F → JsVal F)
    (entries : List (LValue F × LValue F)) (k v : LValue F) (hmem : (k, v) ∈ entries)
    (hkeys : (entries.map Prod.fst).Nodup)
    (hren : ∀ kv ∈ entries, key kv.1 = key k → kv.1 = k) :
    JsVal.getProp (key k) (setAll key conv entries []) = conv v := by
  obtain ⟨pre, post, he⟩ := List.append_of_mem hmem
  rw [he] at hkeys hren ⊢
  refine getProp_setAll_last key conv pre post (k, v) [] ?_
  intro x hx hxe
  have hxk : x.1 = k := hren x (by simp [hx]) hxe
  rw [List.map_append, List.map_cons] at hkeys
  have h1 := (List.nodup_append.mp hkeys).2.1
  have h2 := (List.nodup_cons.mp h1).1
  exact h2 (List.mem_map.mpr ⟨x, hx, hxk⟩)

/-- C12 (as amended): `getAllGlobals` returns a host object, never an error
value, built afresh from the table of globals, and leaves the state as it was;
its keys are exactly the string renderings of the keys of the globals; a
binding `(k, v)` whose rendering is not repeated by a binding enumerated after
it is found under that rendering as `luaToJsVal v 0`, in particular every
binding whose rendering no other key shares; so after
`Execute("a = 1; b = 'x'")`, when the globals bind `a` to 1 and `b` to `x` and
no other key renders as `a` or `b`, the object holds 1 under `a` and `x` under
`b`. -/
theorem getAllGlobals_object (p : Prims F) (args : List (JsVal F)) (L : LState F) :
    ∃ props : List (String × JsVal F),
      getAllGlobals p args L = (.object props, L) ∧
      (∀ m, (getAllGlobals p args L).1 ≠ Error_New m) ∧
      (props.map Prod.fst).Nodup ∧
      (∀ s, s ∈ props.map Prod.fst ↔ ∃ kv ∈ (deref L.heap L.G).entries p, kv.1.String p = s) ∧
      (∀ pre k v post, (deref L.heap L.G).entries p = pre ++ (k, v) :: post →
        (∀ kv ∈ post, kv.1.String p ≠ k.String p) →
        (JsVal.object props).Get p (k.String p) = luaToJsVal p L.heap v 0) ∧
      (∀ k v, (k, v) ∈ (deref L.heap L.G).entries p →
        (((deref L.heap L.G).entries p).map Prod.fst).Nodup →
        (∀ kv ∈ (deref L.heap L.G).entries p, kv.1.String p = k.String p → kv.1 = k) →
        (JsVal.object props).Get p (k.String p) = luaToJsVal p L.heap v 0) ∧
      (∀ (E : Engine F) (L0 : LState F),
        L = (doString p E [.string "a = 1; b = 'x'"] L0).2 →
        (.string "a", .number (p.ofInt 1)) ∈ (deref L.heap L.G).entries p →
        (.string "b", .string "x") ∈ (deref L.heap L.G).entries p →
        (((deref L.heap L.G).entries p).map Prod.fst).Nodup →
        (∀ kv ∈ (deref L.heap L.G).entries p,
          kv.1.String p = "a" ∨ kv.1.String p = "b" → kv.1 = .string (kv.1.String p)) →
        (JsVal.object props).Get p "a" = .number (p.ofInt 1) ∧
        (JsVal.object props).Get p "b" = .string "x") := by
  refine ⟨_, getAllGlobals_eq p args L, ?_, ?_, ?_, ?_, ?_, ?_⟩
  · intro m
    rw [getAllGlobals_eq]
    simp [Error_New]
  · exact nodup_setAll _ _ _ _ (by simp)
  · intro s
    rw [keys_setAll]
    simp
  · intro pre k v post he hpost
    rw [he]
    exact getProp_setAll_last (LValue.String p) _ pre post (k, v) [] hpost
  · intro k v hkv hnd hren
    exact getProp_setAll_of_unique (LValue.String p) _ _ k v hkv hnd hren
  · intro E L0 _ ha hb hnd hren
    constructor
    · have h := getProp_setAll_of_unique (LValue.String p)
        (fun v => luaToJsVal p L.heap v 0) _ (.string "a") (.number (p.ofInt 1)) ha hnd
        (fun kv hkv hk => by
          have := hren kv hkv (Or.inl hk)
          rw [this]
          exact congrArg LValue.string hk)
      simp only [LValue.String] at h
      rw [luaToJsVal_number p L.heap _ 0 (by decide)] at h
      exact h
    · have h := getProp_setAll_of_unique (LValue.String p)
        (fun v => luaToJsVal p L.heap v 0) _ (.string "b") (.string "x") hb hnd
        (fun kv hkv hk => by
          have := hren kv hkv (Or.inr hk)
          rw [this]
          exact congrArg LValue.string hk)
      simp only [LValue.String] at h
      rw [luaToJsVal_string p L.heap _ 0 (by decide)] at h
      exact h

theorem doString_assign_state :
    (doString intPrims scriptEngine [.string "a = 1; b = 'x'"] freshState).2 =
      ⟨[⟨[], [("a", .number 1), ("b", .string "x")], []⟩], 0, [], [.chunk "a = 1; b = 'x'"]⟩ := by
  decide

/-- Witness for C12: the globals after the chunk `a = 1; b = 'x'` has run on a
fresh state. -/
theorem getAllGlobals_object_witness :
    ∃ props,
      getAllGlobals intPrims []
          (doString intPrims scriptEngine [.string "a = 1; b = 'x'"] freshState).2 =
        (.object props,
          (doString intPrims scriptEngine [.string "a = 1; b = 'x'"] freshState).2) ∧
      (JsVal.object props).Get intPrims "a" = .number 1 ∧
      (JsVal.object props).Get intPrims "b" = .string "x" := by
  obtain ⟨props, h1, -, -, -, -, -, h7⟩ := getAllGlobals_object intPrims []
    (doString intPrims scriptEngine [.string "a = 1; b = 'x'"] freshState).2
  refine ⟨props, h1, ?_⟩
  have he : (deref (doString intPrims scriptEngine [.string "a = 1; b = 'x'"] freshState).2.heap
      (doString intPrims scriptEngine [.string "a = 1; b = 'x'"] freshState).2.G).entries
        intPrims = [(.string "a", .number 1), (.string "b", .string "x")] := by
    rw [doString_assign_state]
    decide
  refine h7 scriptEngine freshState rfl ?_ ?_ ?_ ?_
  · rw [he]; decide
  · rw [he]; decide
  · rw [he]; decide
  · rw [he]; decide

/-- Counterexample to C12 as stated: the globals `{[1] = "a", ["1"] = "b"}`
bind the key 1 to `"a"`, but the object holds `"b"` under the rendering of 1,
not the conversion `"a"` of the bound value. -/
theorem getAllGlobals_key_collision :
    (LValue.number 1, LValue.string "a") ∈
      (deref collisionState.heap collisionState.G).entries intPrims ∧
    (getAllGlobals intPrims [] collisionState).1.Get intPrims
      (LValue.String intPrims (.number 1)) = .string "b" ∧
    luaToJsVal intPrims collisionState.heap (.string "a") 0 = .string "a" ∧
    (getAllGlobals intPrims [] collisionState).1.Get intPrims
      (LValue.String intPrims (.number 1)) ≠
        luaToJsVal intPrims collisionState.heap (.string "a") 0 := by
  have hs : ∀ s : String, luaToJsVal intPrims collisionState.heap (.string s) 0 = .string s :=
    fun s => luaToJsVal_string _ _ s 0 (by decide)
  have hget : (getAllGlobals intPrims [] collisionState).1.Get intPrims
      (LValue.String intPrims (.number 1)) = .string "b" := by
    rw [getAllGlobals_eq]
    have h2 : intPrims.luaStr 1 = "1" := by decide
    have he : (deref collisionState.heap collisionState.G).entries intPrims =
        [(.number 1, .string "a"), (.string "1", .string "b")] := by decide
    rw [he]
    simp [setAll, JsVal.setProp, JsVal.Get, JsVal.getProp, h2, hs, LValue.String]
  refine ⟨by decide, hget, hs "a", ?_⟩
  rw [hget, hs "a"]
  simp

theorem take_length_sub_one {α : Type} (l : List α) : l.take (l.length - 1) = l.dropLast := by
  rw [List.dropLast_eq_take]

theorem doString_stack_ok (p : Prims F) (E : Engine F) (src : JsVal F)
    (rest : List (JsVal F)) (L : LState F) (rets : List (LValue F)) (heap2 : List (LTable F))
    (he : E.exec (src.String p) L.G L.heap = (.ok rets, heap2)) :
    (doString p E (src :: rest) L).2.stack = (L.stack ++ rets).dropLast := by
  rw [doString_eq]
  simp only [LState.DoString, he, LState.adjust, LState.GetTop, LState.Pop]
  by_cases h : (0 : Int) < ((L.stack ++ rets).length : Int)
  · simp only [Int.reduceNeg, Int.reduceLT, if_true, gt_iff_lt, h]
    exact take_length_sub_one _
  · have h0 : L.stack ++ rets = [] := by
      have : (L.stack ++ rets).length = 0 := by omega
      exact List.length_eq_zero.mp this
    simp only [Int.reduceNeg, Int.reduceLT, if_true, gt_iff_lt, h, if_false, h0]
    rfl

theorem doString_stack_error (p : Prims F) (E : Engine F) (src : JsVal F)
    (rest : List (JsVal F)) (L : LState F) (m : String) (heap2 : List (LTable F))
    (he : E.exec (src.String p) L.G L.heap = (.error m, heap2)) :
    (doString p E (src :: rest) L).2.stack = L.stack := by
  rw [doString_eq]
  simp [LState.DoString, he]

theorem callFunction_stack (p : Prims F) (E : Engine F) (args : List (JsVal F))
    (L : LState F) : (callFunction p E args L).2.stack = L.stack := by
  cases args with
  | nil => simp [callFunction]
  | cons name rest =>
    by_cases hfn : (L.GetGlobal (name.String p)).Type_ = .LTFunction
    · rw [callFunction_eq p E name rest L hfn]
      split <;> rfl
    · simp [callFunction, hfn]

theorem doString_two_values_state :
    (doString intPrims scriptEngine [.string "return 1, 2"] freshState).2 =
      ⟨[LTable.empty], 0, [.number 1], [.chunk "return 1, 2"]⟩ := by
  decide

/-- C14 (the code at the failing input): `getGlobal` and `getAllGlobals` leave
the state as it was, `callFunction` leaves the result stack as it was, and so
does `doString` when the chunk fails; but when the chunk succeeds `doString`
leaves every value the chunk returned on the stack and pops only one.  So, from
a fresh state, `return 1, 2` gives the Number 2 and leaves the number 1 on the
stack, and the chunk `x = 5` run after it, which returns nothing, gives that
left-over Number 1 and not Null. -/
theorem doString_leaves_values (p : Prims F) (E : Engine F) (L : LState F) :
    (∀ args, (getGlobal p args L).2 = L ∧ (getAllGlobals p args L).2 = L) ∧
    (∀ args, (callFunction p E args L).2.stack = L.stack) ∧
    (doString p E [] L).2 = L ∧
    (∀ src rest m heap2, E.exec (JsVal.String p src) L.G L.heap = (.error m, heap2) →
      (doString p E (src :: rest) L).2.stack = L.stack) ∧
    (∀ src rest rets heap2, E.exec (JsVal.String p src) L.G L.heap = (.ok rets, heap2) →
      (doString p E (src :: rest) L).2.stack = (L.stack ++ rets).dropLast) ∧
    (doString intPrims scriptEngine [.string "return 1, 2"] freshState).1 = .number 2 ∧
    (doString intPrims scriptEngine [.string "return 1, 2"] freshState).2.stack =
      [.number 1] ∧
    (doString intPrims scriptEngine [.string "x = 5"]
      (doString intPrims scriptEngine [.string "return 1, 2"] freshState).2).1 = .number 1 ∧
    (doString intPrims scriptEngine [.string "x = 5"]
      (doString intPrims scriptEngine [.string "return 1, 2"] freshState).2).1 ≠ .null := by
  have h1 : (doString intPrims scriptEngine [.string "return 1, 2"] freshState).1 =
      .number 2 := by
    rw [doString_eq]
    have hd : LState.DoString scriptEngine freshState
        (JsVal.String intPrims (.string "return 1, 2")) =
        (none, ⟨[LTable.empty], 0, [.number 1, .number 2], [.chunk "return 1, 2"]⟩) := by
      decide
    rw [hd]
    simp only [LState.GetTop, LState.Pop]
    rw [Get_top _ [.number 1] (.number 2) rfl]
    simp [luaToJsVal_number intPrims _ _ 0 (by decide)]
  have h2 : (doString intPrims scriptEngine [.string "x = 5"]
      (doString intPrims scriptEngine [.string "return 1, 2"] freshState).2).1 =
      .number 1 := by
    rw [doString_two_values_state, doString_eq]
    have hd : LState.DoString scriptEngine
        ⟨[LTable.empty], 0, [.number 1], [.chunk "return 1, 2"]⟩
        (JsVal.String intPrims (.string "x = 5")) =
        (none, ⟨[⟨[], [("x", .number 5)], []⟩], 0, [.number 1],
          [.chunk "return 1, 2", .chunk "x = 5"]⟩) := by
      decide
    rw [hd]
    simp only [LState.GetTop, LState.Pop]
    rw [Get_top _ [] (.number 1) rfl]
    simp [luaToJsVal_number intPrims _ _ 0 (by decide)]
  refine ⟨fun args => ⟨?_, ?_⟩, fun args => callFunction_stack p E args L, by simp [doString],
    fun src rest m heap2 he => doString_stack_error p E src rest L m heap2 he,
    fun src rest rets heap2 he => doString_stack_ok p E src rest L rets heap2 he,
    h1, by rw [doString_two_values_state], h2, by rw [h2]; simp⟩
  · simp only [getGlobal]; split <;> rfl
  · rw [getAllGlobals_eq]

end Globals

/-! ## Array-like objects and the round trip of tables -/

section ArrayLike

variable {F : Type}

theorem jsValToLua_arrayBranch_eq (p : Prims F) (val : JsVal F) (L : LState F)
    (h : arrayBranch p val) :
    jsValToLua p val L =
      (.table L.heap.length,
        appendLoop p val L.heap.length ((val.Get p "length").Int p).toNat L.NewTable.2) := by
  rw [jsValToLua_object_eq p val L h.1, if_pos h.2]

theorem jsValToLua_arraylike_eq (p : Prims F) (val : JsVal F) (L : LState F)
    (h : arrayBranch p val) :
    ∃ rest, jsValToLua p val L =
      (.table L.heap.length,
        { L with heap := L.heap ++ appended p val L ((val.Get p "length").Int p).toNat :: rest })
    := by
  obtain ⟨rest, hr⟩ := appendLoop_inv p val L (fun i S => jsValToLua_extends p _ S)
    ((val.Get p "length").Int p).toNat
  exact ⟨rest, by rw [jsValToLua_arrayBranch_eq p val L h, hr]⟩

theorem arrayEntries_keys (p : Prims F) (arr : List (LValue F)) :
    ∀ (i : Nat), ∀ kv ∈ LTable.arrayEntries p i arr, ∃ x, kv.1 = .number x := by
  induction arr with
  | nil => intro i kv hkv; simp [LTable.arrayEntries] at hkv
  | cons v rest ih =>
    intro i kv hkv
    simp only [LTable.arrayEntries] at hkv
    split at hkv
    · exact ih _ kv hkv
    · rcases List.mem_cons.mp hkv with h | h
      · exact ⟨_, by rw [h]⟩
      · exact ih _ kv h

/-- C17: for every host value with type tag `TypeObject` whose `length` is a
host Number, a real array or not, `jsValToLua` takes the array loop: with `n`
the `length` truncated to an `int`, it returns a reference to a fresh table
that is the result of appending, in order, the conversions of `O[0]`, ...,
`O[n-1]` (each made in the state the loop has reached) to an empty table; the
table has an array part only, every key of it is a Number, and it has no value
under any string key, so none of the named keys of `O`, `length` included,
is a key of it. -/
theorem jsValToLua_array_like (p : Prims F) (val : JsVal F) (L : LState F)
    (hobj : val.Type_ = .TypeObject) (hnum : (val.Get p "length").Type_ = .TypeNumber) :
    ∃ tb rest,
      jsValToLua p val L = (.table L.heap.length, { L with heap := L.heap ++ tb :: rest }) ∧
      tb = appended p val L ((val.Get p "length").Int p).toNat ∧
      tb.array = ((List.range ((val.Get p "length").Int p).toNat).map
        (arrayItem p val L)).filter (fun v => !v.isNil) ∧
      tb.strdict = [] ∧ tb.dict = [] ∧
      (∀ i : Nat, arrayItem p val L i =
        (jsValToLua p (val.Index (i : Int)) (appendLoop p val L.heap.length i L.NewTable.2)).1) ∧
      (∀ key, tb.RawGetString key = .nil) ∧
      (∀ kv ∈ tb.entries p, ∃ x, kv.1 = .number x) := by
  obtain ⟨rest, h⟩ := jsValToLua_arraylike_eq p val L ⟨hobj, hnum⟩
  have he := appended_eq p val L ((val.Get p "length").Int p).toNat
  refine ⟨_, rest, h, rfl, ?_, ?_, ?_, fun i => rfl, ?_, ?_⟩
  · rw [he]
  · rw [he]
  · rw [he]
  · intro key
    rw [he]
    rfl
  · intro kv hkv
    rw [he] at hkv
    simp only [LTable.entries, LTable.strEntries, LTable.dictEntries, List.append_nil] at hkv
    exact arrayEntries_keys p _ 0 kv hkv

/-- Witness for C17: the host object `{length: 2, 0: "a", 1: "b", name: "x"}`,
which is not an array. -/
theorem jsValToLua_array_like_witness :
    ∃ tb rest,
      jsValToLua intPrims
          (.object [("length", .number 2), ("0", .string "a"), ("1", .string "b"),
            ("name", .string "x")]) freshState =
        (.table 1, { freshState with heap := freshState.heap ++ tb :: rest }) ∧
      tb.array = [.string "a", .string "b"] ∧
      tb.RawGetString "name" = .nil ∧ tb.RawGetString "length" = .nil := by
  obtain ⟨tb, rest, h1, -, h3, -, -, h6, h7, -⟩ := jsValToLua_array_like intPrims
    (.object [("length", .number 2), ("0", .string "a"), ("1", .string "b"),
      ("name", .string "x")]) freshState rfl (by decide)
  refine ⟨tb, rest, h1, ?_, h7 "name", h7 "length"⟩
  rw [h3]
  have hn : ((JsVal.Get intPrims (.object [("length", .number 2), ("0", .string "a"),
      ("1", .string "b"), ("name", .string "x")]) "length").Int intPrims).toNat = 2 := by
    decide
  have i0 : (JsVal.object [("length", .number (2 : Int)), ("0", .string "a"),
      ("1", .string "b"), ("name", .string "x")]).Index ((0 : Nat) : Int) = .string "a" := by
    rfl
  have i1 : (JsVal.object [("length", .number (2 : Int)), ("0", .string "a"),
      ("1", .string "b"), ("name", .string "x")]).Index ((1 : Nat) : Int) = .string "b" := by
    rfl
  rw [hn]
  simp only [List.range_succ, List.range_zero, List.nil_append, List.map_cons, List.map_nil,
    List.cons_append, h6, i0, i1, jsValToLua_string]
  simp [LValue.isNil]

theorem setProp_of_not_mem (key : String) (v : JsVal F) (ps : List (String × JsVal F))
    (h : key ∉ ps.map Prod.fst) : JsVal.setProp key v ps = ps ++ [(key, v)] := by
  induction ps with
  | nil => rfl
  | cons kv rest ih =>
    obtain ⟨k, w⟩ := kv
    simp only [List.map_cons, List.mem_cons, not_or] at h
    have hk : ¬ k = key := fun e => h.1 e.symm
    simp [JsVal.setProp, hk, ih h.2]

theorem getProp_of_not_mem (key : String) (ps : List (String × JsVal F))
    (h : key ∉ ps.map Prod.fst) : JsVal.getProp key ps = .undefined := by
  induction ps with
  | nil => rfl
  | cons kv rest ih =>
    obtain ⟨k, w⟩ := kv
    simp only [List.map_cons, List.mem_cons, not_or] at h
    have hk : ¬ k = key := fun e => h.1 e.symm
    simp [JsVal.getProp, hk, ih h.2]

theorem setAll_of_nodup (key : LValue F → String) (conv : LValue F → JsVal F)
    (entries : List (LValue F × LValue F)) :
    ∀ ps : List (String × JsVal F), (∀ kv ∈ entries, key kv.1 ∉ ps.map Prod.fst) →
      (entries.map (fun kv => key kv.1)).Nodup →
      setAll key conv entries ps = ps ++ entries.map (fun kv => (key kv.1, conv kv.2)) := by
  induction entries with
  | nil => intro ps _ _; simp [setAll]
  | cons kv rest ih =>
    intro ps hps hnd
    simp only [List.map_cons, List.nodup_cons] at hnd
    rw [setAll_cons, setProp_of_not_mem _ _ _ (hps kv (List.mem_cons_self _ _)),
      ih _ ?_ hnd.2]
    · simp
    · intro x hx
      simp only [List.map_append, List.map_cons, List.map_nil, List.mem_append,
        List.mem_singleton, not_or]
      refine ⟨hps x (List.mem_cons_of_mem _ hx), ?_⟩
      intro hxe
      exact hnd.1 (List.mem_map.mpr ⟨x, hx, hxe⟩)

theorem map_range_getD {α β : Type} (l : List α) (d : α) (g : α → β) :
    (List.range l.length).map (fun i => g (l.getD i d)) = l.map g := by
  apply List.ext_getElem
  · simp
  · intro i h1 h2
    have hi : i < l.length := by simpa using h1
    simp [List.getD_eq_getElem?_getD, hi]

theorem luaToJsVal_not_array (p : Prims F) (heap : List (LTable F)) (v : LValue F) (d : Int)
    (elems : List (JsVal F)) : luaToJsVal p heap v d ≠ .array elems := by
  by_cases h5 : d > 5
  · rw [luaToJsVal_deep p heap v d h5]; simp
  · have h : d ≤ 5 := by omega
    cases v with
    | nil => rw [luaToJsVal_nil p heap d h]; simp
    | bool b => rw [luaToJsVal_bool p heap b d h]; simp
    | number x => rw [luaToJsVal_number p heap x d h]; simp
    | string s => rw [luaToJsVal_string p heap s d h]; simp
    | table r => rw [luaToJsVal_table p heap r d h]; simp
    | function r => rw [luaToJsVal_function p heap r d h]; simp
    | userdata r =>
      rw [luaToJsVal_other p heap _ d h (by simp [LValue.Type_])]; split <;> simp
    | thread r =>
      rw [luaToJsVal_other p heap _ d h (by simp [LValue.Type_])]; split <;> simp
    | channel r =>
      rw [luaToJsVal_other p heap _ d h (by simp [LValue.Type_])]; split <;> simp

theorem arrayBranch_luaToJsVal (p : Prims F) (heap : List (LTable F)) (v : LValue F)
    (d : Int) :
    arrayBranch p (luaToJsVal p heap v d) ↔
      ∃ r, v = .table r ∧ d ≤ 5 ∧
        (JsVal.getProp "length" (setAll (LValue.String p)
          (fun w => luaToJsVal p heap w (d + 1)) ((deref heap r).entries p) [])).Type_ =
            .TypeNumber := by
  by_cases h5 : d > 5
  · rw [luaToJsVal_deep p heap v d h5]
    constructor
    · intro h; simp [arrayBranch, JsVal.Type_] at h
    · rintro ⟨r, -, hd, -⟩; omega
  · have h : d ≤ 5 := by omega
    cases v with
    | table r =>
      rw [luaToJsVal_table p heap r d h]
      constructor
      · intro hb; exact ⟨r, rfl, h, hb.2⟩
      · rintro ⟨r2, hr, -, hl⟩
        cases hr
        exact ⟨rfl, hl⟩
    | nil =>
      rw [luaToJsVal_nil p heap d h]
      constructor
      · intro hb; simp [arrayBranch, JsVal.Type_] at hb
      · rintro ⟨r2, hr, -, -⟩; cases hr
    | bool b =>
      rw [luaToJsVal_bool p heap b d h]
      constructor
      · intro hb; simp [arrayBranch, JsVal.Type_] at hb
      · rintro ⟨r2, hr, -, -⟩; cases hr
    | number x =>
      rw [luaToJsVal_number p heap x d h]
      constructor
      · intro hb; simp [arrayBranch, JsVal.Type_] at hb
      · rintro ⟨r2, hr, -, -⟩; cases hr
    | string s =>
      rw [luaToJsVal_string p heap s d h]
      constructor
      · intro hb; simp [arrayBranch, JsVal.Type_] at hb
      · rintro ⟨r2, hr, -, -⟩; cases hr
    | function r =>
      rw [luaToJsVal_function p heap r d h]
      constructor
      · intro hb; simp [arrayBranch, JsVal.Type_] at hb
      · rintro ⟨r2, hr, -, -⟩; cases hr
    | userdata r =>
      rw [luaToJsVal_other p heap _ d h (by simp [LValue.Type_])]
      constructor
      · intro hb; split at hb <;> simp [arrayBranch, JsVal.Type_] at hb
      · rintro ⟨r2, hr, -, -⟩; cases hr
    | thread r =>
      rw [luaToJsVal_other p heap _ d h (by simp [LValue.Type_])]
      constructor
      · intro hb; split at hb <;> simp [arrayBranch, JsVal.Type_] at hb
      · rintro ⟨r2, hr, -, -⟩; cases hr
    | channel r =>
      rw [luaToJsVal_other p heap _ d h (by simp [LValue.Type_])]
      constructor
      · intro hb; split at hb <;> simp [arrayBranch, JsVal.Type_] at hb
      · rintro ⟨r2, hr, -, -⟩; cases hr

theorem luaToJsVal_table_nodup (p : Prims F) (heap : List (LTable F)) (r : Nat)
    (hnd : (((deref heap r).entries p).map (fun kv => kv.1.String p)).Nodup) :
    luaToJsVal p heap (.table r) 0 =
      .object (((deref heap r).entries p).map
        (fun kv => (kv.1.String p, luaToJsVal p heap kv.2 1))) := by
  rw [luaToJsVal_table p heap r 0 (by decide),
    setAll_of_nodup (LValue.String p) _ _ [] (by simp) hnd]
  simp

theorem scalar_not_nil (v : LValue F)
    (h : v.Type_ = .LTBool ∨ v.Type_ = .LTNumber ∨ v.Type_ = .LTString) : v.isNil = false := by
  cases v <;> simp [LValue.Type_] at h <;> rfl

theorem jsValToLua_scalar_props (p : Prims F) (heap : List (LTable F))
    (es : List (LValue F × LValue F)) (L : LState F)
    (hscal : ∀ kv ∈ es, kv.2.Type_ = .LTBool ∨ kv.2.Type_ = .LTNumber ∨ kv.2.Type_ = .LTString)
    (hnd : (es.map (fun kv => kv.1.String p)).Nodup)
    (hlk : ∀ kv ∈ es, kv.1.String p ≠ "length")
    (hlen : p.toInt (p.ofInt es.length) = es.length) :
    ∃ rest, jsValToLua p
        (.object (es.map (fun kv => (kv.1.String p, luaToJsVal p heap kv.2 1)))) L =
      (.table L.heap.length,
        { L with heap := L.heap ++ ⟨[], es.map (fun kv => (kv.1.String p, kv.2)), []⟩ :: rest })
    := by
  have hkeys : (es.map (fun kv => (kv.1.String p, luaToJsVal p heap kv.2 1))).map Prod.fst =
      es.map (fun kv => kv.1.String p) := by
    rw [List.map_map]; rfl
  have hlen2 : (es.map (fun kv => (kv.1.String p, luaToJsVal p heap kv.2 1))).length =
      es.length := by simp
  have hnd2 : ((es.map (fun kv => (kv.1.String p, luaToJsVal p heap kv.2 1))).map
      Prod.fst).Nodup := by rw [hkeys]; exact hnd
  have hnum : (JsVal.getProp "length"
      (es.map (fun kv => (kv.1.String p, luaToJsVal p heap kv.2 1)))).Type_ ≠ .TypeNumber := by
    rw [getProp_of_not_mem]
    · simp [JsVal.Type_]
    · rw [hkeys]
      intro hm
      obtain ⟨kv, hkv, he⟩ := List.mem_map.mp hm
      exact hlk kv hkv he
  obtain ⟨rest, h⟩ := jsValToLua_object_props_eq p
    (es.map (fun kv => (kv.1.String p, luaToJsVal p heap kv.2 1))) L
    (by rw [hlen2]; exact hlen) hnum hnd2
  refine ⟨rest, ?_⟩
  rw [h, hlen2]
  have hpair : ∀ i ∈ List.range es.length,
      (propKey p (.object (es.map (fun kv => (kv.1.String p, luaToJsVal p heap kv.2 1)))) i,
        propItem p (.object (es.map (fun kv => (kv.1.String p, luaToJsVal p heap kv.2 1)))) L i)
      = (fun kv : LValue F × LValue F => (kv.1.String p, kv.2)) (es.getD i (.nil, .nil)) := by
    intro i hi
    have hi1 : i < es.length := List.mem_range.mp hi
    have hi2 : i < (es.map (fun kv => (kv.1.String p, luaToJsVal p heap kv.2 1))).length := by
      rw [hlen2]; exact hi1
    have hget : (es.map (fun kv => (kv.1.String p, luaToJsVal p heap kv.2 1))).getD i
        ("", .undefined) =
        ((es.getD i (.nil, .nil)).1.String p, luaToJsVal p heap (es.getD i (.nil, .nil)).2 1) := by
      simp [List.getD_eq_getElem?_getD, hi1]
    have hk := propKey_object p _ i hi2
    have hmem : es.getD i (.nil, .nil) ∈ es := by
      rw [List.getD_eq_getElem _ _ hi1]
      exact List.getElem_mem _
    have hitem : propItem p
        (.object (es.map (fun kv => (kv.1.String p, luaToJsVal p heap kv.2 1)))) L i =
        (es.getD i (.nil, .nil)).2 := by
      simp only [propItem, JsVal.Get]
      rw [hk, getProp_getD _ hnd2 i hi2, hget]
      simp only
      rw [scalar_round_trip p heap _ 1 _ (by decide)
        (Or.inr (hscal _ hmem))]
    rw [hk, hitem, hget]
  rw [List.map_congr_left hpair, map_range_getD es (.nil, .nil)
    (fun kv : LValue F × LValue F => (kv.1.String p, kv.2))]
  have hf : (es.map (fun kv : LValue F × LValue F => (kv.1.String p, kv.2))).filter
      (fun kv => !kv.2.isNil) = es.map (fun kv => (kv.1.String p, kv.2)) := by
    rw [List.filter_eq_self]
    intro kv hkv
    obtain ⟨e, he, rfl⟩ := List.mem_map.mp hkv
    simp [scalar_not_nil _ (hscal e he)]
  rw [hf]

theorem last_occurrence {α : Type} (P : α → Prop) (l : List α) :
    (∀ x ∈ l, ¬ P x) ∨ ∃ pre a post, l = pre ++ a :: post ∧ P a ∧ ∀ x ∈ post, ¬ P x := by
  induction l with
  | nil => left; simp
  | cons a t ih =>
    rcases ih with hnone | ⟨pre, b, post, ht, hb, hpost⟩
    · by_cases ha : P a
      · exact Or.inr ⟨[], a, t, rfl, ha, hnone⟩
      · left
        intro x hx
        rcases List.mem_cons.mp hx with h | h
        · rw [h]; exact ha
        · exact hnone x h
    · exact Or.inr ⟨a :: pre, b, post, by rw [ht]; rfl, hb, hpost⟩

theorem luaToJsVal_type_number (p : Prims F) (heap : List (LTable F)) (v : LValue F) (d : Int)
    (h : (luaToJsVal p heap v d).Type_ = .TypeNumber) : d ≤ 5 ∧ ∃ x, v = .number x := by
  by_cases h5 : d > 5
  · rw [luaToJsVal_deep p heap v d h5] at h; simp [JsVal.Type_] at h
  · have hd : d ≤ 5 := by omega
    refine ⟨hd, ?_⟩
    cases v with
    | nil => rw [luaToJsVal_nil p heap d hd] at h; simp [JsVal.Type_] at h
    | bool b => rw [luaToJsVal_bool p heap b d hd] at h; simp [JsVal.Type_] at h
    | number x => exact ⟨x, rfl⟩
    | string s => rw [luaToJsVal_string p heap s d hd] at h; simp [JsVal.Type_] at h
    | table r => rw [luaToJsVal_table p heap r d hd] at h; simp [JsVal.Type_] at h
    | function r => rw [luaToJsVal_function p heap r d hd] at h; simp [JsVal.Type_] at h
    | userdata r =>
      rw [luaToJsVal_other p heap _ d hd (by simp [LValue.Type_])] at h
      split at h <;> simp [JsVal.Type_] at h
    | thread r =>
      rw [luaToJsVal_other p heap _ d hd (by simp [LValue.Type_])] at h
      split at h <;> simp [JsVal.Type_] at h
    | channel r =>
      rw [luaToJsVal_other p heap _ d hd (by simp [LValue.Type_])] at h
      split at h <;> simp [JsVal.Type_] at h

theorem arrayBranch_luaToJsVal_iff (p : Prims F) (heap : List (LTable F)) (v : LValue F)
    (d : Int) :
    arrayBranch p (luaToJsVal p heap v d) ↔
      ∃ r pre k x post, v = .table r ∧ d ≤ 4 ∧
        (deref heap r).entries p = pre ++ (k, .number x) :: post ∧
        k.String p = "length" ∧ ∀ kv ∈ post, kv.1.String p ≠ "length" := by
  rw [arrayBranch_luaToJsVal]
  constructor
  · rintro ⟨r, hv, hd, hlen⟩
    rcases last_occurrence (fun kv : LValue F × LValue F => kv.1.String p = "length")
      ((deref heap r).entries p) with hnone | ⟨pre, kv, post, he, hk, hpost⟩
    · rw [getProp_setAll_of_not_mem _ _ _ _ _ hnone] at hlen
      simp [JsVal.getProp, JsVal.Type_] at hlen
    · have hpost2 : ∀ x ∈ post, x.1.String p ≠ kv.1.String p := by
        intro x hx; rw [hk]; exact hpost x hx
      have hget := getProp_setAll_last (LValue.String p)
        (fun w => luaToJsVal p heap w (d + 1)) pre post kv [] hpost2
      rw [hk, ← he] at hget
      rw [hget] at hlen
      obtain ⟨hd1, x, hx⟩ := luaToJsVal_type_number p heap kv.2 (d + 1) hlen
      refine ⟨r, pre, kv.1, x, post, hv, by omega, ?_, hk, hpost⟩
      rw [he, ← hx]
  · rintro ⟨r, pre, k, x, post, hv, hd, he, hk, hpost⟩
    refine ⟨r, hv, by omega, ?_⟩
    have hpost2 : ∀ y ∈ post, y.1.String p ≠ (k, LValue.number x).1.String p := by
      intro y hy; simp only; rw [hk]; exact hpost y hy
    have hget := getProp_setAll_last (LValue.String p)
      (fun w => luaToJsVal p heap w (d + 1)) pre post (k, .number x) [] hpost2
    simp only at hget
    rw [hk, ← he] at hget
    rw [hget, luaToJsVal_number p heap x (d + 1) (by omega)]
    rfl

/-- C16 (as amended): for a non-empty table whose keys are Numbers (such as
1..n) with pairwise distinct renderings, none of them `length`, and whose
values are Booleans, Numbers or Strings, `luaToJsVal` at depth 0 gives the host
object that holds each value under the rendering of its key; that object is
not array-like, so `jsValToLua` turns it into a fresh table keyed by those
renderings as Strings, with the same values, which is not the table it came
from.  `luaToJsVal` never yields a host array; its result is taken through the
array loop of `jsValToLua` exactly when the value converted is a table, the
depth is `d ≤ 4`, and the last entry that the table enumerates under a key
rendered `length` holds a Number. -/
theorem sequence_table_round_trip (p : Prims F) (heap : List (LTable F)) (r : Nat)
    (L : LState F)
    (hnum : ∀ kv ∈ (deref heap r).entries p, kv.1.Type_ = .LTNumber)
    (hscal : ∀ kv ∈ (deref heap r).entries p,
      kv.2.Type_ = .LTBool ∨ kv.2.Type_ = .LTNumber ∨ kv.2.Type_ = .LTString)
    (hnd : (((deref heap r).entries p).map (fun kv => kv.1.String p)).Nodup)
    (hlk : ∀ kv ∈ (deref heap r).entries p, kv.1.String p ≠ "length")
    (hne : (deref heap r).entries p ≠ [])
    (hlen : p.toInt (p.ofInt ((deref heap r).entries p).length) =
      ((deref heap r).entries p).length) :
    luaToJsVal p heap (.table r) 0 =
      .object (((deref heap r).entries p).map
        (fun kv => (kv.1.String p, luaToJsVal p heap kv.2 1))) ∧
    ¬ arrayBranch p (luaToJsVal p heap (.table r) 0) ∧
    (∃ tb rest,
      jsValToLua p (luaToJsVal p heap (.table r) 0) L =
        (.table L.heap.length, { L with heap := L.heap ++ tb :: rest }) ∧
      tb.array = [] ∧ tb.dict = [] ∧
      tb.entries p = ((deref heap r).entries p).map
        (fun kv => (.string (kv.1.String p), kv.2)) ∧
      (∀ kv ∈ tb.entries p, kv.1.Type_ = .LTString) ∧
      tb.entries p ≠ (deref heap r).entries p) ∧
    (∀ v d elems, luaToJsVal p heap v d ≠ .array elems) ∧
    (∀ v d, arrayBranch p (luaToJsVal p heap v d) ↔
      ∃ r2 pre k x post, v = .table r2 ∧ d ≤ 4 ∧
        (deref heap r2).entries p = pre ++ (k, .number x) :: post ∧
        k.String p = "length" ∧ ∀ kv ∈ post, kv.1.String p ≠ "length") ∧
    (∀ (val : JsVal F) (L2 : LState F), arrayBranch p val →
      jsValToLua p val L2 =
        (.table L2.heap.length,
          appendLoop p val L2.heap.length ((val.Get p "length").Int p).toNat L2.NewTable.2)) := by
  have hto := luaToJsVal_table_nodup p heap r hnd
  obtain ⟨rest, hback⟩ := jsValToLua_scalar_props p heap _ L hscal hnd hlk hlen
  have hent : LTable.entries p (⟨[], ((deref heap r).entries p).map
      (fun kv => (kv.1.String p, kv.2)), []⟩ : LTable F) =
      ((deref heap r).entries p).map (fun kv => (.string (kv.1.String p), kv.2)) := by
    simp only [LTable.entries, LTable.arrayEntries, LTable.dictEntries, List.nil_append,
      List.append_nil]
    rw [strEntries_of_nonNil _ (by
      intro kv hkv
      obtain ⟨e, he, rfl⟩ := List.mem_map.mp hkv
      exact scalar_not_nil _ (hscal e he)), List.map_map]
    rfl
  refine ⟨hto, ?_, ⟨_, rest, by rw [hto]; exact hback, rfl, rfl, hent, ?_, ?_⟩,
    luaToJsVal_not_array p heap, arrayBranch_luaToJsVal_iff p heap,
    fun val L2 h => jsValToLua_arrayBranch_eq p val L2 h⟩
  · rw [hto]
    rintro ⟨-, h2⟩
    simp only [JsVal.Get] at h2
    rw [getProp_of_not_mem] at h2
    · simp [JsVal.Type_] at h2
    · rw [List.map_map]
      intro hm
      obtain ⟨kv, hkv, he⟩ := List.mem_map.mp hm
      exact hlk kv hkv he
  · intro kv hkv
    rw [hent] at hkv
    obtain ⟨e, -, rfl⟩ := List.mem_map.mp hkv
    rfl
  · rw [hent]
    intro heq
    cases hes : (deref heap r).entries p with
    | nil => exact hne hes
    | cons e tl =>
      rw [hes] at heq
      simp only [List.map_cons, List.cons.injEq] at heq
      have hk : e.1.Type_ = .LTNumber := hnum e (by rw [hes]; exact List.mem_cons_self _ _)
      have : (LValue.string (e.1.String p) : LValue F) = e.1 := congrArg Prod.fst heq.1
      rw [← this] at hk
      simp [LValue.Type_] at hk

/-- Witness for C16: the sequence `{"a", "b"}`. -/
theorem sequence_table_round_trip_witness :
    ∃ tb rest,
      jsValToLua intPrims (luaToJsVal intPrims seqHeap (.table 0) 0) freshState =
        (.table 1, { freshState with heap := freshState.heap ++ tb :: rest }) ∧
      tb.entries intPrims = [(.string "1", .string "a"), (.string "2", .string "b")] := by
  obtain ⟨-, -, ⟨tb, rest, h1, -, -, h4, -, -⟩, -⟩ :=
    sequence_table_round_trip intPrims seqHeap 0 freshState (by decide) (by decide)
      (by decide) (by decide) (by decide) (by decide)
  refine ⟨tb, rest, h1, ?_⟩
  rw [h4]
  decide

/-- Counterexample to C16 as stated: the table `{length = 2}` converts to the
host object `{length: 2}`, which `jsValToLua` takes through the array loop; the
table that comes back is empty. -/
theorem length_table_takes_array_branch :
    arrayBranch intPrims (luaToJsVal intPrims lengthHeap (.table 0) 0) ∧
    luaToJsVal intPrims lengthHeap (.table 0) 0 = .object [("length", .number 2)] ∧
    ∃ tb rest,
      jsValToLua intPrims (luaToJsVal intPrims lengthHeap (.table 0) 0) freshState =
        (.table 1, { freshState with heap := freshState.heap ++ tb :: rest }) ∧
      tb.entries intPrims = [] := by
  have hto : luaToJsVal intPrims lengthHeap (.table 0) 0 = .object [("length", .number 2)] := by
    rw [luaToJsVal_table_nodup intPrims lengthHeap 0 (by decide)]
    have he : (deref lengthHeap 0).entries intPrims = [(.string "length", .number 2)] := by
      decide
    rw [he]
    simp [LValue.String, luaToJsVal_number intPrims lengthHeap _ 1 (by decide)]
  have hb : arrayBranch intPrims (.object [("length", .number (2 : Int))]) := ⟨rfl, rfl⟩
  refine ⟨by rw [hto]; exact hb, hto, ?_⟩
  rw [hto]
  obtain ⟨rest, h⟩ := jsValToLua_arraylike_eq intPrims _ freshState hb
  refine ⟨_, rest, h, ?_⟩
  rw [appended_eq]
  have hn : ((JsVal.Get intPrims (.object [("length", .number 2)]) "length").Int
      intPrims).toNat = 2 := by decide
  have i0 : (JsVal.object [("length", .number (2 : Int))]).Index (0 : Int) =
      .undefined := by rfl
  have i1 : (JsVal.object [("length", .number (2 : Int))]).Index (1 : Int) =
      .undefined := by rfl
  have a0 : arrayItem intPrims (.object [("length", .number 2)]) freshState 0 = .nil := by
    simp [arrayItem, i0, jsValToLua_undefined]
  have a1 : arrayItem intPrims (.object [("length", .number 2)]) freshState 1 = .nil := by
    simp [arrayItem, i1, jsValToLua_undefined]
  rw [hn]
  simp [List.range_succ, a0, a1, LValue.isNil, LTable.entries,
    LTable.arrayEntries, LTable.strEntries, LTable.dictEntries]

end ArrayLike

end GoLua
